import Mathlib

/-!
Verification development for the SystemZero drift-detection service.

This file gives a shallow embedding, in Lean, of the core data model and
operations of the repository:

* SHA-256 (as used via Python's `hashlib.sha256(...).hexdigest()`),
* a JSON value type `JVal` modelling Python's JSON-serialisable values
  (numbers are modelled as integers; no claim exercises float payloads),
* Python-faithful helpers: truthiness, `dict.get`, `str()`/f-string
  rendering, and `json.dumps` with configurable separators and sorted keys,
* the hash chain (`core/logging/hash_chain.py`),
* the immutable log (`core/logging/immutable_log.py`),
* the tree normalizer (`core/normalization/tree_normalizer.py`),
* the signature generator (`core/normalization/signature_generator.py`),
* the transition checker (`core/drift/transition_checker.py`),
* the matcher (`core/drift/matcher.py`), and
* the rate limiter (`interface/api/security.py`).

Theorems at the end of the file settle the frozen claims C1-C10.
-/

set_option maxRecDepth 1000000

namespace SystemZero

/-! ## SHA-256

A from-scratch SHA-256 over byte lists, producing the lowercase hex digest,
mirroring `hashlib.sha256(data).hexdigest()`.  32-bit words are `Nat`s
reduced mod `2^32`. -/

/-- Truncate to 32 bits. -/
def u32 (n : Nat) : Nat := n % 4294967296

/-- Rotate a 32-bit word right by `n`. -/
def rotr (n x : Nat) : Nat := u32 ((x >>> n) ||| (x <<< (32 - n)))

def shaCh (x y z : Nat) : Nat := u32 ((x &&& y) ^^^ ((x ^^^ 4294967295) &&& z))

def shaMaj (x y z : Nat) : Nat := u32 ((x &&& y) ^^^ (x &&& z) ^^^ (y &&& z))

def bigSigma0 (x : Nat) : Nat := (rotr 2 x) ^^^ (rotr 13 x) ^^^ (rotr 22 x)

def bigSigma1 (x : Nat) : Nat := (rotr 6 x) ^^^ (rotr 11 x) ^^^ (rotr 25 x)

def smallSigma0 (x : Nat) : Nat := (rotr 7 x) ^^^ (rotr 18 x) ^^^ (x >>> 3)

def smallSigma1 (x : Nat) : Nat := (rotr 17 x) ^^^ (rotr 19 x) ^^^ (x >>> 10)

/-- The 64 SHA-256 round constants. -/
def shaK : List Nat :=
  [1116352408, 1899447441, 3049323471, 3921009573, 961987163, 1508970993,
   2453635748, 2870763221, 3624381080, 310598401, 607225278, 1426881987,
   1925078388, 2162078206, 2614888103, 3248222580, 3835390401, 4022224774,
   264347078, 604807628, 770255983, 1249150122, 1555081692, 1996064986,
   2554220882, 2821834349, 2952996808, 3210313671, 3336571891, 3584528711,
   113926993, 338241895, 666307205, 773529912, 1294757372, 1396182291,
   1695183700, 1986661051, 2177026350, 2456956037, 2730485921, 2820302411,
   3259730800, 3345764771, 3516065817, 3600352804, 4094571909, 275423344,
   430227734, 506948616, 659060556, 883997877, 958139571, 1322822218,
   1537002063, 1747873779, 1955562222, 2024104815, 2227730452, 2361852424,
   2428436474, 2756734187, 3204031479, 3329325298]

/-- The initial SHA-256 hash state. -/
def shaH0 : List Nat :=
  [1779033703, 3144134277, 1013904242, 2773480762, 1359893119, 2600822924, 528734635, 1541459225]

/-- Pad a byte message per SHA-256: append `0x80`, zeros, then the 64-bit
big-endian bit length, so the total length is a multiple of 64 bytes. -/
def shaPad (msg : List Nat) : List Nat :=
  let len := msg.length
  let bitLen := len * 8
  let zeros := (55 + 64 - len % 64) % 64
  msg ++ [0x80] ++ List.replicate zeros 0 ++
    [(bitLen >>> 56) % 256, (bitLen >>> 48) % 256, (bitLen >>> 40) % 256, (bitLen >>> 32) % 256,
     (bitLen >>> 24) % 256, (bitLen >>> 16) % 256, (bitLen >>> 8) % 256, bitLen % 256]

/-- Group bytes into big-endian 32-bit words. -/
def bytesToWords : List Nat → List Nat
  | b0 :: b1 :: b2 :: b3 :: rest => (((b0 * 256 + b1) * 256 + b2) * 256 + b3) :: bytesToWords rest
  | _ => []

/-- Split a word list into blocks of 16 words. -/
def chunk16 : List Nat → List (List Nat)
  | w0 :: w1 :: w2 :: w3 :: w4 :: w5 :: w6 :: w7 :: w8 :: w9 :: w10 :: w11 :: w12 :: w13 :: w14 :: w15 :: rest =>
      [w0, w1, w2, w3, w4, w5, w6, w7, w8, w9, w10, w11, w12, w13, w14, w15] :: chunk16 rest
  | _ => []

/-- Extend 16 message words into the 64-entry message schedule. -/
def shaSchedule (ws : List Nat) : Array Nat :=
  (List.range 48).foldl
    (fun arr _ =>
      let n := arr.size
      arr.push (u32 (smallSigma1 (arr.get! (n - 2)) + arr.get! (n - 7) +
                     smallSigma0 (arr.get! (n - 15)) + arr.get! (n - 16))))
    ws.toArray

/-- Working state of the SHA-256 compression function. -/
structure ShaState where
  a : Nat
  b : Nat
  c : Nat
  d : Nat
  e : Nat
  f : Nat
  g : Nat
  h : Nat

/-- One round of the SHA-256 compression function. -/
def shaRound (st : ShaState) (kw : Nat × Nat) : ShaState :=
  let t1 := u32 (st.h + bigSigma1 st.e + shaCh st.e st.f st.g + kw.1 + kw.2)
  let t2 := u32 (bigSigma0 st.a + shaMaj st.a st.b st.c)
  { a := u32 (t1 + t2), b := st.a, c := st.b, d := st.c,
    e := u32 (st.d + t1), f := st.e, g := st.f, h := st.g }

/-- Compress one 16-word block into the running 8-word hash state. -/
def shaCompress (hs : List Nat) (block : List Nat) : List Nat :=
  let w := shaSchedule block
  let h0 := hs.getD 0 0
  let h1 := hs.getD 1 0
  let h2 := hs.getD 2 0
  let h3 := hs.getD 3 0
  let h4 := hs.getD 4 0
  let h5 := hs.getD 5 0
  let h6 := hs.getD 6 0
  let h7 := hs.getD 7 0
  let st0 : ShaState := ⟨h0, h1, h2, h3, h4, h5, h6, h7⟩
  let st := (shaK.zip w.toList).foldl shaRound st0
  [u32 (h0 + st.a), u32 (h1 + st.b), u32 (h2 + st.c), u32 (h3 + st.d),
   u32 (h4 + st.e), u32 (h5 + st.f), u32 (h6 + st.g), u32 (h7 + st.h)]

/-- One lowercase hex digit. -/
def hexDigit (n : Nat) : Char :=
  if n < 10 then Char.ofNat (48 + n) else Char.ofNat (87 + n)

/-- A 32-bit word as 8 lowercase hex characters. -/
def wordToHex (w : Nat) : String :=
  String.mk [hexDigit ((w >>> 28) % 16), hexDigit ((w >>> 24) % 16),
             hexDigit ((w >>> 20) % 16), hexDigit ((w >>> 16) % 16),
             hexDigit ((w >>> 12) % 16), hexDigit ((w >>> 8) % 16),
             hexDigit ((w >>> 4) % 16), hexDigit (w % 16)]

/-- SHA-256 of a byte list, as 64 lowercase hex characters. -/
def sha256Bytes (msg : List Nat) : String :=
  let blocks := chunk16 (bytesToWords (shaPad msg))
  let final := blocks.foldl shaCompress shaH0
  String.join (final.map wordToHex)

/-- UTF-8 encoding of one character. -/
def utf8Char (c : Char) : List Nat :=
  let n := c.toNat
  if n < 0x80 then [n]
  else if n < 0x800 then [0xc0 + n / 64, 0x80 + n % 64]
  else if n < 0x10000 then [0xe0 + n / 4096, 0x80 + (n / 64) % 64, 0x80 + n % 64]
  else [0xf0 + n / 262144, 0x80 + (n / 4096) % 64, 0x80 + (n / 64) % 64, 0x80 + n % 64]

/-- UTF-8 encoding of a string. -/
def utf8 (s : String) : List Nat := s.data.flatMap utf8Char

/-- SHA-256 hex digest of the UTF-8 bytes of a string:
`hashlib.sha256(s.encode("utf-8")).hexdigest()`. -/
def sha256 (s : String) : String := sha256Bytes (utf8 s)

example : sha256 "abc" = "ba7816bf8f01cfea414140de5dae2223b00361a396177a9cb410ff61f20015ad" := by decide

example : sha256 "" = "e3b0c44298fc1c149afbf4c8996fb92427ae41e4649b934ca495991b7852b855" := by decide

/-! ## JSON values with Python semantics

`JVal` models Python's JSON-serialisable values.  Numbers are integers:
no claim exercises float payloads, and Python renders integers exactly as
their decimal text.  Objects are association lists in insertion order,
mirroring Python dicts (the constructions in this file never duplicate
keys, as Python dicts cannot). -/

inductive JVal where
  | null : JVal
  | bool : Bool → JVal
  | num : Int → JVal
  | str : String → JVal
  | arr : List JVal → JVal
  | obj : List (String × JVal) → JVal

/-- Structural induction over `JVal`, threading the hypothesis through the
nested lists. -/
theorem JVal.inductionOn {P : JVal → Prop}
    (hnull : P .null) (hbool : ∀ b, P (.bool b)) (hnum : ∀ n, P (.num n))
    (hstr : ∀ s, P (.str s))
    (harr : ∀ xs, (∀ x ∈ xs, P x) → P (.arr xs))
    (hobj : ∀ kvs, (∀ kv ∈ kvs, P kv.2) → P (.obj kvs)) : ∀ v, P v := by
  suffices h : ∀ n (v : JVal), sizeOf v ≤ n → P v from fun v => h (sizeOf v) v le_rfl
  intro n
  induction n with
  | zero =>
    intro v hv
    cases v <;> simp_all
  | succ n ih =>
    intro v hv
    cases v with
    | null => exact hnull
    | bool b => exact hbool b
    | num m => exact hnum m
    | str s => exact hstr s
    | arr xs =>
      refine harr xs (fun x hx => ih x ?_)
      have := List.sizeOf_lt_of_mem hx
      simp only [JVal.arr.sizeOf_spec] at hv
      omega
    | obj kvs =>
      refine hobj kvs (fun kv hkv => ih kv.2 ?_)
      have h1 := List.sizeOf_lt_of_mem hkv
      have h2 : sizeOf kv.2 < sizeOf kv := by
        obtain ⟨k, v⟩ := kv
        simp only [Prod.mk.sizeOf_spec]
        omega
      simp only [JVal.obj.sizeOf_spec] at hv
      omega

mutual

/-- Boolean structural equality on `JVal`. -/
def jvalBeq : JVal → JVal → Bool
  | .null, .null => true
  | .bool a, .bool b => a == b
  | .num a, .num b => a == b
  | .str a, .str b => a == b
  | .arr a, .arr b => jvalBeqList a b
  | .obj a, .obj b => jvalBeqObj a b
  | _, _ => false

def jvalBeqList : List JVal → List JVal → Bool
  | [], [] => true
  | x :: xs, y :: ys => jvalBeq x y && jvalBeqList xs ys
  | _, _ => false

def jvalBeqObj : List (String × JVal) → List (String × JVal) → Bool
  | [], [] => true
  | (k, v) :: xs, (k', v') :: ys => k == k' && jvalBeq v v' && jvalBeqObj xs ys
  | _, _ => false

end

theorem jvalBeq_iff : ∀ a b : JVal, jvalBeq a b = true ↔ a = b := by
  have main : ∀ a : JVal, ∀ b, jvalBeq a b = true ↔ a = b := by
    intro a
    induction a using JVal.inductionOn with
    | hnull => intro b; cases b <;> simp [jvalBeq]
    | hbool x => intro b; cases b <;> simp [jvalBeq]
    | hnum x => intro b; cases b <;> simp [jvalBeq]
    | hstr x => intro b; cases b <;> simp [jvalBeq]
    | harr xs ih =>
      intro b
      cases b with
      | arr ys =>
        simp only [jvalBeq, JVal.arr.injEq]
        induction xs generalizing ys with
        | nil => cases ys <;> simp [jvalBeqList]
        | cons x xs ihl =>
          cases ys with
          | nil => simp [jvalBeqList]
          | cons y ys =>
            simp only [jvalBeqList, Bool.and_eq_true, List.cons.injEq]
            rw [ih x (List.mem_cons_self x xs) y,
                ihl (fun z hz => ih z (List.mem_cons_of_mem _ hz)) ys]
      | null => simp [jvalBeq]
      | bool y => simp [jvalBeq]
      | num y => simp [jvalBeq]
      | str y => simp [jvalBeq]
      | obj ys => simp [jvalBeq]
    | hobj kvs ih =>
      intro b
      cases b with
      | obj ys =>
        simp only [jvalBeq, JVal.obj.injEq]
        induction kvs generalizing ys with
        | nil => cases ys <;> simp [jvalBeqObj]
        | cons kv kvs ihl =>
          cases ys with
          | nil => obtain ⟨k, v⟩ := kv; simp [jvalBeqObj]
          | cons kv' ys =>
            obtain ⟨k, v⟩ := kv
            obtain ⟨k', v'⟩ := kv'
            simp only [jvalBeqObj, Bool.and_eq_true, List.cons.injEq, Prod.mk.injEq,
                       beq_iff_eq]
            rw [ih (k, v) (List.mem_cons_self _ kvs) v',
                ihl (fun z hz => ih z (List.mem_cons_of_mem _ hz)) ys]
      | null => simp [jvalBeq]
      | bool y => simp [jvalBeq]
      | num y => simp [jvalBeq]
      | str y => simp [jvalBeq]
      | arr ys => simp [jvalBeq]
  exact main

instance : DecidableEq JVal := fun a b => decidable_of_iff _ (jvalBeq_iff a b)

/-- Python truthiness: `None`, `False`, `0`, `""`, `[]`, `{}` are falsy. -/
def truthy : JVal → Bool
  | .null => false
  | .bool b => b
  | .num n => n != 0
  | .str s => !(s == "")
  | .arr xs => !xs.isEmpty
  | .obj kvs => !kvs.isEmpty

/-- `d.get(k)` on an association list: `some v` if the key is present
(`v` may be `.null`), `none` if absent. -/
def jget (kvs : List (String × JVal)) (k : String) : Option JVal :=
  (kvs.find? (fun kv => kv.1 == k)).map (·.2)

/-- `d.get(k)` lifted to `JVal` (returns `none` on non-dicts, where Python
would raise). -/
def objGet : JVal → String → Option JVal
  | .obj kvs, k => jget kvs k
  | _, _ => none

/-- `obj.get(k, d)` with a default. -/
def objGetD (v : JVal) (k : String) (d : JVal) : JVal := (objGet v k).getD d

/-- A value obtained by key lookup is structurally smaller than the
association list holding it. -/
theorem sizeOf_lt_of_jget {kvs : List (String × JVal)} {k : String} {v : JVal}
    (h : jget kvs k = some v) : sizeOf v < sizeOf kvs := by
  unfold jget at h
  cases hf : kvs.find? (fun kv => kv.1 == k) with
  | none => rw [hf] at h; exact absurd h (by simp)
  | some kv =>
    rw [hf] at h
    have hm := List.mem_of_find?_eq_some hf
    have h1 := List.sizeOf_lt_of_mem hm
    obtain ⟨k', v'⟩ := kv
    have h2 : v' = v := by simpa using h
    subst h2
    simp only [Prod.mk.sizeOf_spec] at h1
    omega

/-- `d[k] = v` on a Python dict: replace the value at the first occurrence
of `k`, keeping its position; append if absent. -/
def pyDictSet : List (String × JVal) → String → JVal → List (String × JVal)
  | [], k, v => [(k, v)]
  | (k', v') :: rest, k, v =>
      if k' = k then (k, v) :: rest else (k', v') :: pyDictSet rest k v

mutual

/-- Python `repr` of a JSON value.  Strings use single quotes without
escaping: the payloads exercised in this file contain no quotes,
backslashes or control characters. -/
def pyRepr : JVal → String
  | .null => "None"
  | .bool b => if b then "True" else "False"
  | .num n => toString n
  | .str s => "'" ++ s ++ "'"
  | .arr xs => "[" ++ String.intercalate ", " (pyReprList xs) ++ "]"
  | .obj kvs => "\x7b" ++ String.intercalate ", " (pyReprObj kvs) ++ "\x7d"

def pyReprList : List JVal → List String
  | [] => []
  | x :: rest => pyRepr x :: pyReprList rest

def pyReprObj : List (String × JVal) → List String
  | [] => []
  | (k, v) :: rest => ("'" ++ k ++ "': " ++ pyRepr v) :: pyReprObj rest

end

/-- Python `str(v)`, which is also what an f-string interpolates:
the string itself for strings, `repr` recursively for containers. -/
def pyStr : JVal → String
  | .str s => s
  | v => pyRepr v

mutual

/-- Python `==` on JSON values.  `True == 1` and `False == 0` hold, as in
Python.  Dict equality is modelled order-sensitively; Python's `==` on
dicts ignores insertion order, which no claim exercises. -/
def pyEq : JVal → JVal → Bool
  | .null, .null => true
  | .bool a, .bool b => a == b
  | .num a, .num b => a == b
  | .bool a, .num b => (if a then (1 : Int) else 0) == b
  | .num a, .bool b => a == (if b then (1 : Int) else 0)
  | .str a, .str b => a == b
  | .arr a, .arr b => pyEqList a b
  | .obj a, .obj b => pyEqObj a b
  | _, _ => false

def pyEqList : List JVal → List JVal → Bool
  | [], [] => true
  | x :: xs, y :: ys => pyEq x y && pyEqList xs ys
  | _, _ => false

def pyEqObj : List (String × JVal) → List (String × JVal) → Bool
  | [], [] => true
  | (k, v) :: xs, (k', v') :: ys => k == k' && pyEq v v' && pyEqObj xs ys
  | _, _ => false

end

/-! ### `json.dumps` -/

/-- One 4-digit lowercase hex group for a `\uXXXX` escape. -/
def hex4 (n : Nat) : String :=
  String.mk [hexDigit (n / 4096 % 16), hexDigit (n / 256 % 16),
             hexDigit (n / 16 % 16), hexDigit (n % 16)]

/-- JSON `\uXXXX` escape (surrogate pair above the BMP), as CPython's
`ensure_ascii` encoder emits. -/
def uEscape (n : Nat) : String :=
  if n < 0x10000 then "\\u" ++ hex4 n
  else
    let m := n - 0x10000
    "\\u" ++ hex4 (0xd800 + m / 0x400) ++ "\\u" ++ hex4 (0xdc00 + m % 0x400)

/-- Escape one character as CPython's default (`ensure_ascii=True`) JSON
encoder does: named escapes for the common controls, `\uXXXX` for other
characters outside the printable ASCII range. -/
def jsonEscapeChar (c : Char) : String :=
  if c = '"' then "\\\""
  else if c = '\\' then "\\\\"
  else if c = '\n' then "\\n"
  else if c = '\r' then "\\r"
  else if c = '\t' then "\\t"
  else if c.toNat = 8 then "\\b"
  else if c.toNat = 12 then "\\f"
  else if c.toNat < 0x20 ∨ 0x7e < c.toNat then uEscape c.toNat
  else String.singleton c

/-- A JSON string literal with CPython escaping. -/
def jsonQuote (s : String) : String :=
  "\"" ++ String.join (s.data.map jsonEscapeChar) ++ "\""

/-- Key order used by `json.dumps(..., sort_keys=True)`: lexicographic by
code point, as Python string comparison.  Compared as character lists
(`String`'s own order is not kernel-reducible). -/
def keyLe (a b : String × JVal) : Prop := a.1.data ≤ b.1.data

instance : DecidableRel keyLe := fun a b => inferInstanceAs (Decidable (a.1.data ≤ b.1.data))

instance : IsTotal (String × JVal) keyLe := ⟨fun a b => le_total a.1.data b.1.data⟩

instance : IsTrans (String × JVal) keyLe := ⟨fun _ _ _ h1 h2 => le_trans h1 h2⟩

mutual

/-- Recursively sort every object's keys, as `json.dumps(..., sort_keys=True)`
does while serialising. -/
def sortDeep : JVal → JVal
  | .obj kvs => .obj (List.insertionSort keyLe (sortDeepObj kvs))
  | .arr xs => .arr (sortDeepList xs)
  | v => v

def sortDeepList : List JVal → List JVal
  | [] => []
  | x :: rest => sortDeep x :: sortDeepList rest

def sortDeepObj : List (String × JVal) → List (String × JVal)
  | [] => []
  | (k, v) :: rest => (k, sortDeep v) :: sortDeepObj rest

end

mutual

/-- Serialise a JSON value with the given item and key separators
(keys assumed already sorted; see `sortDeep`). -/
def jsonEmit (isep ksep : String) : JVal → String
  | .null => "null"
  | .bool b => if b then "true" else "false"
  | .num n => toString n
  | .str s => jsonQuote s
  | .arr xs => "[" ++ String.intercalate isep (jsonEmitList isep ksep xs) ++ "]"
  | .obj kvs => "\x7b" ++ String.intercalate isep (jsonEmitObj isep ksep kvs) ++ "\x7d"

def jsonEmitList (isep ksep : String) : List JVal → List String
  | [] => []
  | x :: rest => jsonEmit isep ksep x :: jsonEmitList isep ksep rest

def jsonEmitObj (isep ksep : String) : List (String × JVal) → List String
  | [] => []
  | (k, v) :: rest => (jsonQuote k ++ ksep ++ jsonEmit isep ksep v) :: jsonEmitObj isep ksep rest

end

/-- `json.dumps(v, sort_keys=True)` with Python's DEFAULT separators
`(", ", ": ")` — note the spaces after the comma and the colon. -/
def pyJsonDumps (v : JVal) : String := jsonEmit ", " ": " (sortDeep v)

/-- `json.dumps(v, sort_keys=True, separators=(",", ":"))`: compact
canonical JSON with no insignificant whitespace. -/
def pyJsonDumpsCompact (v : JVal) : String := jsonEmit "," ":" (sortDeep v)

example : pyJsonDumps (.obj [("b", .num 2), ("a", .num 1)]) = "\x7b\"a\": 1, \"b\": 2\x7d" := by decide

example : pyJsonDumpsCompact (.obj [("b", .num 2), ("a", .num 1)]) = "\x7b\"a\":1,\"b\":2\x7d" := by decide

example : pyStr (.num 0) = "0" := by decide

/-! ## Hash chain (`core/logging/hash_chain.py`) -/

namespace HashChain

/-- The genesis hash: `hashlib.sha256(b"genesis").hexdigest()`. -/
def genesisHash : String := sha256 "genesis"

/-- Entry-data serialisation shared by `add_entry` and `verify_entry`:
`json.dumps(entry_data, sort_keys=True)` for dicts (Python's default
separators `", "`/`": "`), `str(entry_data)` otherwise. -/
def serializeEntry (d : JVal) : String :=
  match d with
  | .obj kvs => pyJsonDumps (.obj kvs)
  | v => pyStr v

/-- `HashChain.add_entry`: the new entry hash
`sha256(f"{current_hash}{data_str}{timestamp}")`.  `current` is the chain's
`current_hash` (a string in normal operation, but `_load_existing` can
store any JSON value there, hence `JVal` rendered as an f-string would). -/
def add_entry (current : JVal) (entryData : JVal) (timestamp : JVal) : String :=
  sha256 (pyStr current ++ serializeEntry entryData ++ pyStr timestamp)

/-- `HashChain.verify_entry`: recompute the hash from
`(previous_hash, entry_data, timestamp)` and compare (`==`) with
`entry_hash`. -/
def verify_entry (entryHash : JVal) (entryData : JVal) (timestamp : JVal)
    (previousHash : JVal) : Bool :=
  pyEq (.str (sha256 (pyStr previousHash ++ serializeEntry entryData ++ pyStr timestamp)))
    entryHash

/-- Loop body of `HashChain.verify_chain`: `previous` is the RUNNING hash
(genesis, then each entry's own hash), `idx` the enumeration index.  Any
failure returns immediately with a single diagnostic. -/
def verifyChainGo (previous : JVal) (idx : Nat) : List JVal → Bool × List String
  | [] => (true, [])
  | entry :: rest =>
    let eHashA := (objGet entry "entry_hash").getD .null
    let eHash := if truthy eHashA then eHashA else (objGet entry "hash").getD .null
    let ePrevA := (objGet entry "previous_hash").getD .null
    let ePrev := if truthy ePrevA then ePrevA else (objGet entry "prev").getD .null
    let data := (objGet entry "data").getD .null
    let ts := (objGet entry "timestamp").getD .null
    if eHash = .null then
      (false, ["Entry " ++ toString idx ++ " missing hash"])
    else if data = .null ∨ ts = .null then
      if idx > 0 ∧ truthy ePrev ∧ ¬(pyEq ePrev previous) then
        (false, ["Entry " ++ toString idx ++ " previous_hash mismatch"])
      else
        verifyChainGo eHash (idx + 1) rest
    else if verify_entry eHash data ts previous then
      verifyChainGo eHash (idx + 1) rest
    else
      (false, ["Entry " ++ toString idx ++ " hash verification failed"])

/-- `HashChain.verify_chain` on a freshly-constructed chain (whose
`genesis_hash` is the genesis constant). -/
def verify_chain (entries : List JVal) : Bool × List String :=
  if entries.isEmpty then (true, [])
  else verifyChainGo (.str genesisHash) 0 entries

end HashChain

/-! ## Immutable log (`core/logging/immutable_log.py`)

File IO is modelled away: a log line is presented as `Option JVal`, the
outcome of `json.loads` on that line (`none` for a line that raises
`json.JSONDecodeError`); blank lines are skipped by the source before
parsing and so do not appear in the input list. -/

structure LogState where
  entries : List JVal
  currentHash : JVal
  chainLength : Nat
  loadError : Bool

namespace ImmutableLog

/-- A fresh log over a non-existent file. -/
def initLog : LogState :=
  { entries := [], currentHash := .str HashChain.genesisHash,
    chainLength := 0, loadError := false }

/-- The dict form of an appended event: dicts pass through, anything else
is wrapped as `{"data": str(event)}` (events with a `to_dict` method are
presented to the model as their dict). -/
def eventDictOf (event : JVal) : JVal :=
  match event with
  | .obj kvs => JVal.obj kvs
  | v => .obj [("data", .str (pyStr v))]

/-- `event_dict.get("timestamp", time.time())`: the stored timestamp if
the key is present (even `None`), else the wall clock. -/
def timestampOf (eventDict : JVal) (now : JVal) : JVal :=
  match eventDict with
  | .obj kvs => (jget kvs "timestamp").getD now
  | _ => now

/-- The log entry that `ImmutableLog.append` constructs and writes for
`event` when the wall clock reads `now`. -/
def mkLogEntry (s : LogState) (event : JVal) (now : JVal) : JVal :=
  let eventDict := eventDictOf event
  let timestamp := timestampOf eventDict now
  .obj [("entry_hash", .str (HashChain.add_entry s.currentHash eventDict timestamp)),
        ("previous_hash", if s.entries.isEmpty then .str HashChain.genesisHash
                          else s.currentHash),
        ("timestamp", timestamp),
        ("data", eventDict)]

/-- `ImmutableLog.append`: convert the event to a dict, default the
timestamp to the wall clock `now`, extend the hash chain, write the entry,
cache it, and return the entry hash.  Note that it never consults
`_load_error`. -/
def append (s : LogState) (event : JVal) (now : JVal) : String × LogState :=
  let eventDict := eventDictOf event
  let timestamp := timestampOf eventDict now
  let entryHash := HashChain.add_entry s.currentHash eventDict timestamp
  (entryHash,
   { entries := s.entries ++ [mkLogEntry s event now],
     currentHash := .str entryHash,
     chainLength := s.chainLength + 1,
     loadError := s.loadError })

/-- `ImmutableLog.verify_integrity`: false immediately on a load error,
otherwise the boolean component of `verify_chain` over the cached
entries. -/
def verify_integrity (s : LogState) : Bool :=
  if s.loadError then false else (HashChain.verify_chain s.entries).1

/-- One iteration of `ImmutableLog._load_existing`'s line loop: a parse
failure sets `_load_error` and continues; a parsed entry is normalised
(raw event dicts lacking a `data` key are wrapped), cached, and, when it
carries an `entry_hash` key, advances the chain head. -/
def loadLine (s : LogState) (line : Option JVal) : LogState :=
  match line with
  | none => { s with loadError := true }
  | some entry =>
    let normalized := match entry with
      | .obj kvs => if (jget kvs "data").isNone then JVal.obj [("data", .obj kvs)]
                    else .obj kvs
      | v => v
    let s' := { s with entries := s.entries ++ [normalized] }
    match normalized with
    | .obj kvs =>
      match jget kvs "entry_hash" with
      | some h => { s' with currentHash := h, chainLength := s'.chainLength + 1 }
      | none => s'
    | _ => s'

/-- `ImmutableLog._load_existing` over the parsed lines of the file. -/
def loadLog (lines : List (Option JVal)) : LogState :=
  lines.foldl loadLine initLog

/-- Fold `append` over a list of `(event, wall-clock)` pairs. -/
def appendAll (s : LogState) : List (JVal × JVal) → LogState
  | [] => s
  | (ev, now) :: rest => appendAll (append s ev now).2 rest

/-- The log entries created by appending `evs` starting from state `s`. -/
def builtEntries (s : LogState) : List (JVal × JVal) → List JVal
  | [] => []
  | (ev, now) :: rest => mkLogEntry s ev now :: builtEntries (append s ev now).2 rest

end ImmutableLog

/-! ## Tree normalizer (`core/normalization/tree_normalizer.py`) -/

namespace TreeNormalizer

/-- `self._transient_props`. -/
def transientProps : List String := ["timestamp", "id", "instance_id", "hash"]

/-- `self._property_mappings.get(key, key)`. -/
def propertyMapping (k : String) : String :=
  if k = "label" ∨ k = "title" ∨ k = "text" ∨ k = "description" then "name" else k

/-- One component of the Python sort key `(role, name, type)`.  On strings
(the well-typed case) the order is Python's; ints and bools compare
numerically before all strings, as a fixed totalisation of the cases where
Python's tuple comparison would raise `TypeError` (None/list/dict values,
or mixed types). -/
abbrev SortPart := Lex (Nat × Lex (Int × List Char))

/-- The full sort key for one child node. -/
abbrev NodeKey := Lex (SortPart × Lex (SortPart × SortPart))

def sortPartOf (v : JVal) : SortPart :=
  match v with
  | .num n => toLex (0, toLex (n, []))
  | .bool b => toLex (0, toLex (if b then 1 else 0, []))
  | .str s => toLex (1, toLex (0, s.data))
  | _ => toLex (2, toLex (0, []))

/-- The sort key of `_sort_children`:
`(node.get("role", ""), node.get("name", ""), node.get("type", ""))`. -/
def nodeSortKey (v : JVal) : NodeKey :=
  toLex (sortPartOf (objGetD v "role" (.str "")),
    toLex (sortPartOf (objGetD v "name" (.str "")), sortPartOf (objGetD v "type" (.str ""))))

def childLe (a b : JVal) : Prop := nodeSortKey a ≤ nodeSortKey b

instance : DecidableRel childLe :=
  fun a b => inferInstanceAs (Decidable (nodeSortKey a ≤ nodeSortKey b))

instance : IsTotal JVal childLe := ⟨fun a b => le_total (nodeSortKey a) (nodeSortKey b)⟩

instance : IsTrans JVal childLe := ⟨fun _ _ _ h1 h2 => le_trans h1 h2⟩

/-- `_sort_children`: Python's `sorted` is a stable sort by the key;
insertion sort realises the same (unique) stable result. -/
def sortChildren (cs : List JVal) : List JVal := List.insertionSort childLe cs

mutual

/-- `TreeNormalizer._normalize_node`: falsy or non-dict nodes are returned
unchanged; otherwise transient keys are dropped, alias keys folded via
`propertyMapping`, a `children` list is recursively normalised, filtered
of falsy entries and sorted, dict values are recursively normalised, and
everything else is copied as-is. -/
def normalizeNode : JVal → JVal
  | .obj [] => .obj []
  | .obj (kv :: kvs) => .obj (normItems [] (kv :: kvs))
  | v => v
termination_by v => sizeOf v

/-- The `for key, value in node.items()` loop, with `acc` the dict built
so far. -/
def normItems (acc : List (String × JVal)) : List (String × JVal) → List (String × JVal)
  | [] => acc
  | (k, v) :: rest =>
    if k ∈ transientProps then normItems acc rest
    else match v with
      | .arr cs =>
        if k = "children" then
          normItems
            (pyDictSet acc "children" (.arr (sortChildren ((normChildren cs).filter truthy))))
            rest
        else normItems (pyDictSet acc (propertyMapping k) (.arr cs)) rest
      | .obj kvs2 => normItems (pyDictSet acc (propertyMapping k) (normalizeNode (.obj kvs2))) rest
      | other => normItems (pyDictSet acc (propertyMapping k) other) rest
termination_by l => sizeOf l
decreasing_by
  all_goals simp_wf
  all_goals omega

def normChildren : List JVal → List JVal
  | [] => []
  | c :: rest => normalizeNode c :: normChildren rest
termination_by l => sizeOf l
decreasing_by
  all_goals simp_wf
  all_goals omega

end

/-! Unfolding equations for the normalizer, one per loop branch. -/

theorem normItems_nil (acc : List (String × JVal)) : normItems acc [] = acc := by
  rw [normItems]

theorem normItems_transient (acc : List (String × JVal)) (k : String) (v : JVal)
    (rest : List (String × JVal)) (ht : k ∈ transientProps) :
    normItems acc ((k, v) :: rest) = normItems acc rest := by
  rw [normItems.eq_def]
  simp [ht]

theorem normItems_arr (acc : List (String × JVal)) (k : String) (cs : List JVal)
    (rest : List (String × JVal)) (ht : k ∉ transientProps) :
    normItems acc ((k, JVal.arr cs) :: rest)
      = if k = "children" then
          normItems
            (pyDictSet acc "children" (.arr (sortChildren ((normChildren cs).filter truthy))))
            rest
        else normItems (pyDictSet acc (propertyMapping k) (.arr cs)) rest := by
  rw [normItems, if_neg ht]

theorem normItems_obj (acc : List (String × JVal)) (k : String) (kvs2 : List (String × JVal))
    (rest : List (String × JVal)) (ht : k ∉ transientProps) :
    normItems acc ((k, JVal.obj kvs2) :: rest)
      = normItems (pyDictSet acc (propertyMapping k) (normalizeNode (.obj kvs2))) rest := by
  rw [normItems, if_neg ht]

theorem normItems_null (acc : List (String × JVal)) (k : String)
    (rest : List (String × JVal)) (ht : k ∉ transientProps) :
    normItems acc ((k, JVal.null) :: rest)
      = normItems (pyDictSet acc (propertyMapping k) .null) rest := by
  rw [normItems, if_neg ht] <;> simp

theorem normItems_bool (acc : List (String × JVal)) (k : String) (b : Bool)
    (rest : List (String × JVal)) (ht : k ∉ transientProps) :
    normItems acc ((k, JVal.bool b) :: rest)
      = normItems (pyDictSet acc (propertyMapping k) (.bool b)) rest := by
  rw [normItems, if_neg ht] <;> simp

theorem normItems_num (acc : List (String × JVal)) (k : String) (n : Int)
    (rest : List (String × JVal)) (ht : k ∉ transientProps) :
    normItems acc ((k, JVal.num n) :: rest)
      = normItems (pyDictSet acc (propertyMapping k) (.num n)) rest := by
  rw [normItems, if_neg ht] <;> simp

theorem normItems_str (acc : List (String × JVal)) (k : String) (a : String)
    (rest : List (String × JVal)) (ht : k ∉ transientProps) :
    normItems acc ((k, JVal.str a) :: rest)
      = normItems (pyDictSet acc (propertyMapping k) (.str a)) rest := by
  rw [normItems, if_neg ht] <;> simp

theorem normalizeNode_cons (kv : String × JVal) (kvs : List (String × JVal)) :
    normalizeNode (.obj (kv :: kvs)) = .obj (normItems [] (kv :: kvs)) := by
  rw [normalizeNode]

theorem normChildren_nil : normChildren [] = [] := by rw [normChildren]

theorem normChildren_cons (c : JVal) (rest : List JVal) :
    normChildren (c :: rest) = normalizeNode c :: normChildren rest := by
  rw [normChildren]

/-- `TreeNormalizer.normalize`: falsy input gives `{}`; otherwise the
`root` value (if the key is present) is normalised in place and transient
top-level keys are removed.  (Python raises on a truthy non-dict input;
the model returns it unchanged.) -/
def normalize (tree : JVal) : JVal :=
  if ¬ truthy tree then .obj []
  else match tree with
    | .obj kvs =>
        .obj ((kvs.map (fun kv => if kv.1 = "root" then (kv.1, normalizeNode kv.2) else kv)).filter
          (fun kv => kv.1 ∉ transientProps))
    | v => v

end TreeNormalizer

/-! Dictionary-building lemmas used for the normalizer's idempotence. -/

theorem mem_pyDictSet (acc : List (String × JVal)) (k : String) (v : JVal) (p : String × JVal)
    (h : p ∈ pyDictSet acc k v) : p ∈ acc ∨ p = (k, v) := by
  induction acc with
  | nil =>
    simp [pyDictSet] at h
    right
    exact h
  | cons kv rest ih =>
    obtain ⟨k', v'⟩ := kv
    by_cases hk : k' = k
    · rw [pyDictSet, if_pos hk] at h
      rcases List.mem_cons.mp h with h1 | h1
      · right; exact h1
      · left; exact List.mem_cons_of_mem _ h1
    · rw [pyDictSet, if_neg hk] at h
      rcases List.mem_cons.mp h with h1 | h1
      · left; rw [h1]; exact List.mem_cons_self _ _
      · rcases ih h1 with h2 | h2
        · left; exact List.mem_cons_of_mem _ h2
        · right; exact h2

theorem mem_keys_pyDictSet (acc : List (String × JVal)) (k : String) (v : JVal) (a : String)
    (h : a ∈ (pyDictSet acc k v).map Prod.fst) : a ∈ acc.map Prod.fst ∨ a = k := by
  obtain ⟨p, hp, hpa⟩ := List.mem_map.mp h
  rcases mem_pyDictSet acc k v p hp with h1 | h1
  · left; rw [← hpa]; exact List.mem_map_of_mem _ h1
  · right; rw [← hpa, h1]

theorem keys_pyDictSet_nodup (acc : List (String × JVal)) (k : String) (v : JVal)
    (h : (acc.map Prod.fst).Nodup) : ((pyDictSet acc k v).map Prod.fst).Nodup := by
  induction acc with
  | nil => simp [pyDictSet]
  | cons kv rest ih =>
    obtain ⟨k', v'⟩ := kv
    simp only [List.map_cons] at h
    obtain ⟨hknotin, hrest⟩ := List.nodup_cons.mp h
    by_cases hk : k' = k
    · rw [pyDictSet, if_pos hk]
      simp only [List.map_cons]
      exact List.nodup_cons.mpr ⟨hk ▸ hknotin, hrest⟩
    · rw [pyDictSet, if_neg hk]
      simp only [List.map_cons]
      refine List.nodup_cons.mpr ⟨?_, ih hrest⟩
      intro hmem
      rcases mem_keys_pyDictSet rest k v k' hmem with h1 | h1
      · exact hknotin h1
      · exact hk h1

theorem pyDictSet_of_not_mem (acc : List (String × JVal)) (k : String) (v : JVal)
    (h : k ∉ acc.map Prod.fst) : pyDictSet acc k v = acc ++ [(k, v)] := by
  induction acc with
  | nil => rfl
  | cons kv rest ih =>
    obtain ⟨k', v'⟩ := kv
    simp only [List.map_cons, List.mem_cons] at h
    push_neg at h
    rw [pyDictSet, if_neg (fun hh => h.1 hh.symm), ih h.2]
    rfl

namespace TreeNormalizer

theorem normalizeNode_null : normalizeNode .null = .null := by
  rw [normalizeNode] <;> simp

theorem normalizeNode_bool (b : Bool) : normalizeNode (.bool b) = .bool b := by
  rw [normalizeNode] <;> simp

theorem normalizeNode_num (n : Int) : normalizeNode (.num n) = .num n := by
  rw [normalizeNode] <;> simp

theorem normalizeNode_str (s : String) : normalizeNode (.str s) = .str s := by
  rw [normalizeNode] <;> simp

theorem normalizeNode_arr (xs : List JVal) : normalizeNode (.arr xs) = .arr xs := by
  rw [normalizeNode] <;> simp

theorem normalizeNode_objnil : normalizeNode (.obj []) = .obj [] := by rw [normalizeNode]

theorem propertyMapping_not_transient {k : String} (h : k ∉ transientProps) :
    propertyMapping k ∉ transientProps := by
  unfold propertyMapping
  split
  · decide
  · exact h

theorem propertyMapping_ne_children {k : String} (h : k ≠ "children") :
    propertyMapping k ≠ "children" := by
  unfold propertyMapping
  split
  · decide
  · exact h

theorem propertyMapping_idem (k : String) :
    propertyMapping (propertyMapping k) = propertyMapping k := by
  by_cases h : k = "label" ∨ k = "title" ∨ k = "text" ∨ k = "description"
  · have h1 : propertyMapping k = "name" := by unfold propertyMapping; rw [if_pos h]
    rw [h1]
    decide
  · have h1 : propertyMapping k = k := by unfold propertyMapping; rw [if_neg h]
    rw [h1]
    exact h1

theorem normChildren_eq_map (cs : List JVal) : normChildren cs = cs.map normalizeNode := by
  induction cs with
  | nil => rw [normChildren_nil]; rfl
  | cons c rest ih => rw [normChildren_cons, ih]; rfl

/-- An entry of a dictionary built by one `_normalize_node` pass: its key
is neither transient nor an unresolved alias, a `children` value is
already normalised, truthy-filtered and sorted, and a dict value is a
fixed point of `_normalize_node`. -/
def ItemFixed (p : String × JVal) : Prop :=
  p.1 ∉ transientProps ∧ propertyMapping p.1 = p.1 ∧
  (∀ cs, p.2 = .arr cs → p.1 = "children" →
    sortChildren ((normChildren cs).filter truthy) = cs) ∧
  (∀ kvs2, p.2 = .obj kvs2 → normalizeNode (.obj kvs2) = .obj kvs2)

/-- Idempotence at a value, together with idempotence at each element
when the value is a list (the shape the `children` branch consumes). -/
def ValIdem (u : JVal) : Prop :=
  normalizeNode (normalizeNode u) = normalizeNode u ∧
  ∀ cs, u = .arr cs → ∀ c ∈ cs, normalizeNode (normalizeNode c) = normalizeNode c

/-- Re-running the `children` pipeline on its own output changes
nothing. -/
theorem sortedChildren_fixed (cs : List JVal)
    (hc : ∀ c ∈ cs, normalizeNode (normalizeNode c) = normalizeNode c) :
    sortChildren ((normChildren (sortChildren ((normChildren cs).filter truthy))).filter truthy)
      = sortChildren ((normChildren cs).filter truthy) := by
  have hmem : ∀ x ∈ sortChildren ((normChildren cs).filter truthy),
      x ∈ (normChildren cs).filter truthy :=
    fun x hx => (List.Perm.mem_iff (List.perm_insertionSort childLe _)).mp hx
  have hidem : ∀ x ∈ sortChildren ((normChildren cs).filter truthy), normalizeNode x = x := by
    intro x hx
    have hx2 := (List.mem_filter.mp (hmem x hx)).1
    rw [normChildren_eq_map] at hx2
    obtain ⟨c, hcmem, hceq⟩ := List.mem_map.mp hx2
    rw [← hceq]
    exact hc c hcmem
  have htr : ∀ x ∈ sortChildren ((normChildren cs).filter truthy), truthy x = true :=
    fun x hx => by simpa using (List.mem_filter.mp (hmem x hx)).2
  have h1 : normChildren (sortChildren ((normChildren cs).filter truthy))
      = sortChildren ((normChildren cs).filter truthy) := by
    rw [normChildren_eq_map]
    calc (sortChildren ((normChildren cs).filter truthy)).map normalizeNode
        = (sortChildren ((normChildren cs).filter truthy)).map id :=
          List.map_congr_left hidem
      _ = sortChildren ((normChildren cs).filter truthy) := List.map_id _
  have h2 : (sortChildren ((normChildren cs).filter truthy)).filter truthy
      = sortChildren ((normChildren cs).filter truthy) :=
    List.filter_eq_self.mpr htr
  have h3 : List.Sorted childLe (sortChildren ((normChildren cs).filter truthy)) :=
    List.sorted_insertionSort childLe _
  rw [h1, h2]
  exact List.Sorted.insertionSort_eq h3

/-- Every entry of the dictionary built by the `_normalize_node` loop is
`ItemFixed`, and its keys are distinct, provided the input values are
idempotent (the recursive hypothesis) and the accumulator is sound. -/
theorem normItems_fixed_out :
    ∀ l acc : List (String × JVal),
      (∀ p ∈ l, ValIdem p.2) →
      (∀ p ∈ acc, ItemFixed p) →
      (acc.map Prod.fst).Nodup →
      (∀ p ∈ normItems acc l, ItemFixed p) ∧ ((normItems acc l).map Prod.fst).Nodup := by
  intro l
  induction l with
  | nil =>
    intro acc _ hacc hnd
    rw [normItems_nil]
    exact ⟨hacc, hnd⟩
  | cons kv rest ih =>
    intro acc hval hacc hnd
    obtain ⟨k, u⟩ := kv
    have hvrest : ∀ p ∈ rest, ValIdem p.2 := fun p hp => hval p (List.mem_cons_of_mem _ hp)
    have hvu : ValIdem u := hval (k, u) (List.mem_cons_self _ _)
    have hstep : ∀ (k' : String) (u' : JVal), ItemFixed (k', u') →
        ∀ p ∈ pyDictSet acc k' u', ItemFixed p := by
      intro k' u' hfix p hp
      rcases mem_pyDictSet acc k' u' p hp with h1 | h1
      · exact hacc p h1
      · rw [h1]; exact hfix
    by_cases ht : k ∈ transientProps
    · rw [normItems_transient _ _ _ _ ht]
      exact ih acc hvrest hacc hnd
    · cases u with
      | null =>
        rw [normItems_null _ _ _ ht]
        exact ih _ hvrest
          (hstep _ _ ⟨propertyMapping_not_transient ht, propertyMapping_idem k,
            fun cs h => JVal.noConfusion h, fun kvs2 h => JVal.noConfusion h⟩)
          (keys_pyDictSet_nodup _ _ _ hnd)
      | bool b =>
        rw [normItems_bool _ _ _ _ ht]
        exact ih _ hvrest
          (hstep _ _ ⟨propertyMapping_not_transient ht, propertyMapping_idem k,
            fun cs h => JVal.noConfusion h, fun kvs2 h => JVal.noConfusion h⟩)
          (keys_pyDictSet_nodup _ _ _ hnd)
      | num n =>
        rw [normItems_num _ _ _ _ ht]
        exact ih _ hvrest
          (hstep _ _ ⟨propertyMapping_not_transient ht, propertyMapping_idem k,
            fun cs h => JVal.noConfusion h, fun kvs2 h => JVal.noConfusion h⟩)
          (keys_pyDictSet_nodup _ _ _ hnd)
      | str s =>
        rw [normItems_str _ _ _ _ ht]
        exact ih _ hvrest
          (hstep _ _ ⟨propertyMapping_not_transient ht, propertyMapping_idem k,
            fun cs h => JVal.noConfusion h, fun kvs2 h => JVal.noConfusion h⟩)
          (keys_pyDictSet_nodup _ _ _ hnd)
      | arr cs =>
        rw [normItems_arr _ _ _ _ ht]
        by_cases hk : k = "children"
        · rw [if_pos hk]
          have helems : ∀ c ∈ cs, normalizeNode (normalizeNode c) = normalizeNode c :=
            hvu.2 cs rfl
          refine ih _ hvrest
            (hstep "children" (JVal.arr (sortChildren ((normChildren cs).filter truthy)))
              ⟨by show "children" ∉ transientProps; decide,
               by show propertyMapping "children" = "children"; decide, ?_,
               fun kvs2 h => JVal.noConfusion h⟩)
            (keys_pyDictSet_nodup _ _ _ hnd)
          intro cs0 hcs0 _
          have hcs0' : JVal.arr (sortChildren ((normChildren cs).filter truthy))
              = JVal.arr cs0 := hcs0
          injection hcs0' with h2
          rw [← h2]
          exact sortedChildren_fixed cs helems
        · rw [if_neg hk]
          refine ih _ hvrest
            (hstep _ _ ⟨propertyMapping_not_transient ht, propertyMapping_idem k, ?_,
              fun kvs2 h => JVal.noConfusion h⟩)
            (keys_pyDictSet_nodup _ _ _ hnd)
          intro cs0 _ hch
          exact absurd hch (propertyMapping_ne_children hk)
      | obj kvs2 =>
        rw [normItems_obj _ _ _ _ ht]
        have hsh : ∃ l2, normalizeNode (JVal.obj kvs2) = .obj l2 := by
          cases kvs2 with
          | nil => exact ⟨[], normalizeNode_objnil⟩
          | cons a b => exact ⟨_, normalizeNode_cons a b⟩
        obtain ⟨l2, hl2⟩ := hsh
        refine ih _ hvrest
          (hstep _ _ ⟨propertyMapping_not_transient ht, propertyMapping_idem k, ?_, ?_⟩)
          (keys_pyDictSet_nodup _ _ _ hnd)
        · intro cs0 hcs0 _
          have hcs0' : normalizeNode (JVal.obj kvs2) = JVal.arr cs0 := hcs0
          rw [hl2] at hcs0'
          exact JVal.noConfusion hcs0'
        · intro kvs3 hkvs3
          have hkvs3' : normalizeNode (JVal.obj kvs2) = JVal.obj kvs3 := hkvs3
          have hid := hvu.1
          rw [hkvs3'] at hid
          exact hid

/-- Feeding a dictionary of `ItemFixed` entries with distinct keys back
through the loop reproduces it unchanged (appended after the
accumulator). -/
theorem normItems_of_fixed :
    ∀ l acc : List (String × JVal),
      (∀ p ∈ l, ItemFixed p) →
      (l.map Prod.fst).Nodup →
      (∀ a ∈ l.map Prod.fst, a ∉ acc.map Prod.fst) →
      normItems acc l = acc ++ l := by
  intro l
  induction l with
  | nil =>
    intro acc _ _ _
    rw [normItems_nil]
    simp
  | cons kv rest ih =>
    intro acc hfix hnd hdisj
    obtain ⟨k, u⟩ := kv
    obtain ⟨hkt, hkm, hkarr, hkobj⟩ := hfix (k, u) (List.mem_cons_self _ _)
    have hfrest : ∀ p ∈ rest, ItemFixed p := fun p hp => hfix p (List.mem_cons_of_mem _ hp)
    have hndrest : (rest.map Prod.fst).Nodup := by
      simp only [List.map_cons] at hnd
      exact (List.nodup_cons.mp hnd).2
    have hknotrest : k ∉ rest.map Prod.fst := by
      simp only [List.map_cons] at hnd
      exact (List.nodup_cons.mp hnd).1
    have hkacc : k ∉ acc.map Prod.fst := hdisj k (by simp)
    have happ : ∀ u' : JVal, normItems (pyDictSet acc k u') rest = acc ++ (k, u') :: rest := by
      intro u'
      rw [pyDictSet_of_not_mem _ _ _ hkacc]
      rw [ih (acc ++ [(k, u')]) hfrest hndrest (by
        intro a ha
        simp only [List.map_append, List.mem_append]
        intro hcontra
        rcases hcontra with h1 | h1
        · exact hdisj a (List.mem_cons_of_mem _ ha) h1
        · have ha2 : a = k := by simpa using h1
          exact hknotrest (ha2 ▸ ha))]
      simp
    cases u with
    | null => rw [normItems_null _ _ _ hkt, hkm]; exact happ _
    | bool b => rw [normItems_bool _ _ _ _ hkt, hkm]; exact happ _
    | num n => rw [normItems_num _ _ _ _ hkt, hkm]; exact happ _
    | str s => rw [normItems_str _ _ _ _ hkt, hkm]; exact happ _
    | arr cs =>
      rw [normItems_arr _ _ _ _ hkt]
      by_cases hk : k = "children"
      · rw [if_pos hk, hkarr cs rfl hk, ← hk]
        exact happ _
      · rw [if_neg hk, hkm]
        exact happ _
    | obj kvs2 =>
      rw [normItems_obj _ _ _ _ hkt, hkm, hkobj kvs2 rfl]
      exact happ _

/-- `_normalize_node` is idempotent at every value, and elementwise on
lists. -/
theorem valIdem_all : ∀ v, ValIdem v := by
  intro v
  induction v using JVal.inductionOn with
  | hnull => exact ⟨by rw [normalizeNode_null, normalizeNode_null], fun cs h => JVal.noConfusion h⟩
  | hbool b => exact ⟨by rw [normalizeNode_bool, normalizeNode_bool], fun cs h => JVal.noConfusion h⟩
  | hnum n => exact ⟨by rw [normalizeNode_num, normalizeNode_num], fun cs h => JVal.noConfusion h⟩
  | hstr s => exact ⟨by rw [normalizeNode_str, normalizeNode_str], fun cs h => JVal.noConfusion h⟩
  | harr xs hih =>
    refine ⟨by rw [normalizeNode_arr, normalizeNode_arr], ?_⟩
    intro cs h
    injection h with h2
    subst h2
    intro c hc
    exact (hih c hc).1
  | hobj kvs hih =>
    refine ⟨?_, fun cs h => JVal.noConfusion h⟩
    cases kvs with
    | nil => rw [normalizeNode_objnil, normalizeNode_objnil]
    | cons kv0 kvs0 =>
      rw [normalizeNode_cons]
      obtain ⟨hLfix, hLnd⟩ :=
        normItems_fixed_out (kv0 :: kvs0) [] (fun p hp => hih p hp) (by simp) (by simp)
      cases hL : normItems [] (kv0 :: kvs0) with
      | nil => rw [normalizeNode_objnil]
      | cons p L' =>
        rw [hL] at hLfix hLnd
        rw [normalizeNode_cons, normItems_of_fixed (p :: L') [] hLfix hLnd (by simp)]
        rfl

theorem normalizeNode_idem (v : JVal) :
    normalizeNode (normalizeNode v) = normalizeNode v := (valIdem_all v).1

theorem normalize_not_truthy (t : JVal) (h : truthy t = false) : normalize t = .obj [] := by
  simp [normalize, h]

theorem normalize_obj_truthy (kvs : List (String × JVal)) (h : truthy (JVal.obj kvs) = true) :
    normalize (.obj kvs)
      = .obj ((kvs.map (fun kv => if kv.1 = "root" then (kv.1, normalizeNode kv.2) else kv)).filter
          (fun kv => kv.1 ∉ transientProps)) := by
  simp [normalize, h]

theorem normalize_bool (b : Bool) (h : truthy (JVal.bool b) = true) :
    normalize (.bool b) = .bool b := by
  simp [normalize, h]

theorem normalize_num (n : Int) (h : truthy (JVal.num n) = true) :
    normalize (.num n) = .num n := by
  simp [normalize, h]

theorem normalize_str (s : String) (h : truthy (JVal.str s) = true) :
    normalize (.str s) = .str s := by
  simp [normalize, h]

theorem normalize_arr (xs : List JVal) (h : truthy (JVal.arr xs) = true) :
    normalize (.arr xs) = .arr xs := by
  simp [normalize, h]

end TreeNormalizer

/-! ## Signature generator (`core/normalization/signature_generator.py`) -/

namespace SignatureGenerator

mutual

/-- `SignatureGenerator._extract_structure`: the recursive projection of a
value to `{"type": obj.get("type"), "role": obj.get("role")}` plus a
`children` list when the key holds a list; lists map elementwise;
everything else maps to `None`. -/
def extractStructure : JVal → JVal
  | .obj kvs =>
    let base := [("type", (jget kvs "type").getD .null), ("role", (jget kvs "role").getD .null)]
    match extractStructChildren kvs with
    | some cs => .obj (base ++ [("children", .arr cs)])
    | none => .obj base
  | .arr xs => .arr (extractStructureList xs)
  | _ => .null

/-- Locate the first `children` entry; when it holds a list, project its
elements (`"children" in obj and isinstance(obj["children"], list)`). -/
def extractStructChildren : List (String × JVal) → Option (List JVal)
  | [] => none
  | (k, v) :: rest =>
    if k = "children" then
      match v with
      | .arr cs => some (extractStructureList cs)
      | _ => none
    else extractStructChildren rest

def extractStructureList : List JVal → List JVal
  | [] => []
  | x :: rest => extractStructure x :: extractStructureList rest

end

/-- `SignatureGenerator.generate_structural`: SHA-256 of the empty string
for falsy trees, else SHA-256 of
`json.dumps(structure, sort_keys=True, separators=(",", ":"))`. -/
def generate_structural (tree : JVal) : String :=
  if ¬ truthy tree then sha256 ""
  else sha256 (pyJsonDumpsCompact (extractStructure tree))

end SignatureGenerator

/-! ## Transition checker (`core/drift/transition_checker.py`) -/

namespace TransitionChecker

/-- The `TransitionResult` dataclass. -/
structure TransitionResult where
  is_valid : Bool
  reason : Option String := none
  expected : Option JVal := none
  actual : Option String := none

/-- `TransitionChecker.check_transition` in the template-dict calling
style (`from_id` a dict): falsy template or falsy `valid_transitions`
means valid; otherwise valid exactly when some element of
`valid_transitions` equals (`==`) the target id.  A truthy non-list
`valid_transitions` string is iterated per character, as Python does
(Python raises on other non-iterables; modelled as not-listed). -/
def check_transition (fromTemplate : JVal) (toId : String) : TransitionResult :=
  if ¬ truthy fromTemplate then
    { is_valid := true, reason := some "No source template (initial state)" }
  else
    let fromScreenId := objGetD fromTemplate "screen_id" (.str "unknown")
    let validTransitions := objGetD fromTemplate "valid_transitions" (.arr [])
    if ¬ truthy validTransitions then
      { is_valid := true, reason := some "No transition restrictions" }
    else
      let invalidResult : TransitionResult :=
        { is_valid := false,
          reason := some ("Unexpected transition: " ++ pyStr fromScreenId ++ " -> " ++ toId),
          expected := some validTransitions, actual := some toId }
      match validTransitions with
      | .arr vts =>
        if vts.any (fun v => pyEq v (.str toId)) then
          { is_valid := true, expected := some (.arr vts), actual := some toId }
        else invalidResult
      | .str s =>
        if s.data.any (fun c => String.singleton c == toId) then
          { is_valid := true, expected := some (.str s), actual := some toId }
        else invalidResult
      | _ => invalidResult

end TransitionChecker

/-! ## Matcher (`core/drift/matcher.py`)

Scores are rationals; Python computes the same arithmetic in binary
floating point, which none of the claims' comparisons distinguish. -/

namespace Matcher

/-- The default `similarity_threshold` of `Matcher.__init__`. -/
def defaultSimilarityThreshold : ℚ := 8 / 10

/-- `set.add`, modelled as append-if-absent under Python equality. -/
def setAdd (s : List JVal) (v : JVal) : List JVal :=
  if s.any (fun w => pyEq w v) then s else s ++ [v]

/-- A Python `set(...)` of a list, as a deduplicated list. -/
def pySetOf (xs : List JVal) : List JVal := xs.foldl setAdd []

mutual

/-- `Matcher._extract_node_names`: collect truthy `name` values into a
set, recursing through `root` and `children` keys and through lists. -/
def extractNodeNames (acc : List JVal) : JVal → List JVal
  | .obj kvs =>
    let acc1 := match jget kvs "name" with
      | some nv => if truthy nv then setAdd acc nv else acc
      | none => acc
    extractNamesChildren (extractNamesRoot acc1 kvs) kvs
  | .arr xs => extractNodeNamesList acc xs
  | _ => acc
termination_by structural v => v

/-- Recurse into the first `root` entry, if any. -/
def extractNamesRoot (acc : List JVal) : List (String × JVal) → List JVal
  | [] => acc
  | (k, v) :: rest => if k = "root" then extractNodeNames acc v else extractNamesRoot acc rest
termination_by structural l => l

/-- Recurse through the first `children` entry when it holds a list
(Python iterates other values or raises; not visited in the model). -/
def extractNamesChildren (acc : List JVal) : List (String × JVal) → List JVal
  | [] => acc
  | (k, v) :: rest =>
    if k = "children" then
      match v with
      | .arr cs => extractNodeNamesList acc cs
      | _ => acc
    else extractNamesChildren acc rest
termination_by structural l => l

def extractNodeNamesList (acc : List JVal) : List JVal → List JVal
  | [] => acc
  | x :: rest => extractNodeNamesList (extractNodeNames acc x) rest
termination_by structural l => l

end

mutual

/-- `Matcher._extract_roles`: collect truthy `role` values from a node
and its `children` (via `node.get("children", [])`). -/
def extractRoles (acc : List JVal) : JVal → List JVal
  | .obj kvs =>
    let acc1 := match jget kvs "role" with
      | some rv => if truthy rv then setAdd acc rv else acc
      | none => acc
    extractRolesChildren acc1 kvs
  | _ => acc

def extractRolesChildren (acc : List JVal) : List (String × JVal) → List JVal
  | [] => acc
  | (k, v) :: rest =>
    if k = "children" then
      match v with
      | .arr cs => extractRolesList acc cs
      | _ => acc
    else extractRolesChildren acc rest

def extractRolesList (acc : List JVal) : List JVal → List JVal
  | [] => acc
  | x :: rest => extractRolesList (extractRoles acc x) rest

end

mutual

/-- `Matcher._calculate_depth`: the depth of the deepest node with no
(or falsy) `children`. -/
def calcDepth : JVal → Nat → Nat
  | .obj kvs, d => calcDepthChildren kvs d
  | _, d => d

def calcDepthChildren : List (String × JVal) → Nat → Nat
  | [], d => d
  | (k, v) :: rest, d =>
    if k = "children" then
      match v with
      | .arr (c :: cs) => calcDepthList (c :: cs) (d + 1) 0
      | _ => d
    else calcDepthChildren rest d

/-- `max(_calculate_depth(child, d) for child in children)` as a fold. -/
def calcDepthList : List JVal → Nat → Nat → Nat
  | [], _, m => m
  | c :: rest, d, m => calcDepthList rest d (max m (calcDepth c d))

end

mutual

/-- `Matcher._count_nodes`: 1 per dict node plus its `children`
(via `node.get("children", [])`). -/
def countNodes : JVal → Nat
  | .obj kvs => 1 + countChildren kvs
  | _ => 0

def countChildren : List (String × JVal) → Nat
  | [] => 0
  | (k, v) :: rest =>
    if k = "children" then
      match v with
      | .arr cs => countNodesList cs
      | _ => 0
    else countChildren rest

def countNodesList : List JVal → Nat
  | [] => 0
  | c :: rest => countNodes c + countNodesList rest

end

/-- `Matcher._check_required_nodes`: the fraction of `required_nodes`
whose name occurs in the tree; 1 when the list is missing or falsy. -/
def checkRequiredNodes (tree tpl : JVal) : ℚ :=
  let requiredNodes := objGetD tpl "required_nodes" (.arr [])
  if ¬ truthy requiredNodes then 1
  else match requiredNodes with
    | .arr l =>
      let treeNodes := extractNodeNames [] tree
      let found := l.countP (fun n => treeNodes.any (fun w => pyEq w n))
      (found : ℚ) / (l.length : ℚ)
    | _ => 0

/-- Numeric reading of a template metric (`depth` / `node_count`); Python
bools are ints.  A present non-numeric value makes Python raise later; the
model falls back to the tree-derived default, as when absent. -/
def templateNat (tpl : JVal) (k : String) (dflt : Nat) : Int :=
  match objGet tpl k with
  | some (.num n) => n
  | some (.bool b) => if b then 1 else 0
  | _ => dflt

/-- `Matcher._check_structure`: 1 when both depths are zero (early
return); otherwise the mean of depth similarity and node-count similarity,
each `1 - |delta| / max`. -/
def checkStructure (tree tpl : JVal) : ℚ :=
  let treeDepth : Int := calcDepth (objGetD tree "root" .null) 0
  let templateDepth : Int := templateNat tpl "depth" (calcDepth (objGetD tree "root" .null) 0)
  if treeDepth = 0 ∧ templateDepth = 0 then 1
  else
    let depthSimilarity : ℚ :=
      1 - ((treeDepth - templateDepth).natAbs : ℚ) / ((max treeDepth templateDepth : Int) : ℚ)
    let treeCount : Int := countNodes (objGetD tree "root" .null)
    let templateCount : Int := templateNat tpl "node_count" (countNodes (objGetD tree "root" .null))
    let countSimilarity : ℚ :=
      if treeCount = 0 ∧ templateCount = 0 then 1
      else 1 - ((treeCount - templateCount).natAbs : ℚ) / ((max treeCount templateCount : Int) : ℚ)
    (depthSimilarity + countSimilarity) / 2

/-- `Matcher._check_roles`: Jaccard overlap of the tree's role set with
`expected_roles`; 1 when the template expects none, 0 when the template
expects some but the tree has none. -/
def checkRoles (tree tpl : JVal) : ℚ :=
  let treeRoles := extractRoles [] (objGetD tree "root" .null)
  match objGetD tpl "expected_roles" (.arr []) with
  | .arr l =>
    let templateRoles := pySetOf l
    if templateRoles.isEmpty then 1
    else if treeRoles.isEmpty then 0
    else
      let inter := treeRoles.filter (fun r => templateRoles.any (fun w => pyEq w r))
      let union := templateRoles.foldl setAdd treeRoles
      if union.isEmpty then 1 else (inter.length : ℚ) / (union.length : ℚ)
  | _ => 1

/-- `Matcher.similarity_score`: 0 for a falsy tree or template, else the
weighted sum `0.4 * required + 0.4 * structure + 0.2 * roles`. -/
def similarity_score (tree tpl : JVal) : ℚ :=
  if ¬ truthy tree ∨ ¬ truthy tpl then 0
  else (2 / 5) * checkRequiredNodes tree tpl + (2 / 5) * checkStructure tree tpl
       + (1 / 5) * checkRoles tree tpl

/-- `Matcher.find_best_match`: scan keeping the strictly-best score
(starting from `None, 0.0`), then return the pair only when the best
score meets the threshold.  Mirroring the source, the returned template
is an `Option`: with a non-positive threshold Python can return
`(None, 0.0)`. -/
def find_best_match (threshold : ℚ) (tree : JVal) (templates : List JVal) :
    Option (Option JVal × ℚ) :=
  if templates.isEmpty then none
  else
    let best := templates.foldl
      (fun (acc : Option JVal × ℚ) tpl =>
        if similarity_score tree tpl > acc.2 then (some tpl, similarity_score tree tpl) else acc)
      ((none : Option JVal), (0 : ℚ))
    if best.2 ≥ threshold then some best else none

end Matcher

/-! ## Rate limiter (`interface/api/security.py`)

Timestamps live in an arbitrary linearly ordered commutative ring
(Python uses `time.time()` floats; the algorithm only compares and
subtracts the constants 60 and 5).  The per-client deque is a list of
recorded request times, oldest first. -/

namespace RateLimiter

variable {α : Type} [LinearOrderedCommRing α]

/-- `RateLimiter._cleanup_old_requests`: pop from the front while older
than `now - window_size` (window_size = 60). -/
def cleanupOldRequests (q : List α) (currentTime : α) : List α :=
  q.dropWhile (fun t => t < currentTime - 60)

/-- `RateLimiter.check_rate_limit`: clean up, reject when the 5-second
count reaches `burst_size` or the window count reaches
`requests_per_minute`, else record the request.  Returns
(allowed, queue-after-call). -/
def check_rate_limit (rpm burst : ℕ) (q : List α) (now : α) : Bool × List α :=
  let q1 := cleanupOldRequests q now
  let requestCount := q1.length
  let recentCount := (q1.filter (fun t => now - 5 < t)).length
  if burst ≤ recentCount then (false, q1)
  else if rpm ≤ requestCount then (false, q1)
  else (true, q1 ++ [now])

/-- Run a sequence of checks for one client, collecting each call's
verdict and the final queue. -/
def processRequests (rpm burst : ℕ) (q : List α) : List α → List (α × Bool) × List α
  | [] => ([], q)
  | t :: ts =>
    let r := check_rate_limit rpm burst q t
    let rest := processRequests rpm burst r.2 ts
    ((t, r.1) :: rest.1, rest.2)

/-- The accepted (recorded) request times of a fresh client's call
sequence. -/
def acceptedTimes (rpm burst : ℕ) (ts : List α) : List α :=
  ((processRequests rpm burst ([] : List α) ts).1.filter (·.2)).map (·.1)

end RateLimiter

/-! ## Supporting lemmas -/

theorem shaCompress_length (hs block : List Nat) : (shaCompress hs block).length = 8 := rfl

theorem foldl_shaCompress_length (blocks : List (List Nat)) (hs : List Nat) (h : hs.length = 8) :
    (blocks.foldl shaCompress hs).length = 8 := by
  induction blocks generalizing hs with
  | nil => exact h
  | cons b bs ih => exact ih _ (shaCompress_length hs b)

theorem wordToHex_length (w : Nat) : (wordToHex w).length = 8 := rfl

theorem length_foldl_append (l : List String) (init : String) :
    (l.foldl (· ++ ·) init).length = init.length + (l.map String.length).sum := by
  induction l generalizing init with
  | nil => simp
  | cons x xs ih =>
    simp only [List.foldl_cons, ih, List.map_cons, List.sum_cons, String.length_append]
    omega

/-- Every digest has 64 hex characters. -/
theorem sha256_length (s : String) : (sha256 s).length = 64 := by
  unfold sha256 sha256Bytes String.join
  rw [length_foldl_append, List.map_map]
  have h8 : ((chunk16 (bytesToWords (shaPad (utf8 s)))).foldl shaCompress shaH0).length = 8 :=
    foldl_shaCompress_length _ _ rfl
  have hmap : (String.length ∘ wordToHex) = fun _ => 8 := funext fun w => wordToHex_length w
  rw [hmap]
  generalize ((chunk16 (bytesToWords (shaPad (utf8 s)))).foldl shaCompress shaH0) = final at h8 ⊢
  induction final generalizing s with
  | nil => simp at h8
  | cons w ws ih =>
    simp only [List.map_cons, List.sum_cons]
    cases hws : ws with
    | nil => simp_all
    | cons w2 ws2 =>
      subst hws
      simp only [List.length_cons] at h8 ⊢
      clear ih
      rcases ws2 with _ | ⟨a1, _ | ⟨a2, _ | ⟨a3, _ | ⟨a4, _ | ⟨a5, _ | ⟨a6, tl⟩⟩⟩⟩⟩⟩ <;>
        simp_all <;> omega

theorem sha256_ne_empty (s : String) : sha256 s ≠ "" := by
  intro h
  have hl := sha256_length s
  rw [h] at hl
  simp at hl

theorem truthy_sha256 (s : String) : truthy (.str (sha256 s)) = true := by
  have := sha256_ne_empty s
  simp [truthy, this]

theorem pyEq_str_self (a : String) : pyEq (.str a) (.str a) = true := by simp [pyEq]

/-- Only an equal string is `==` to a string (`True == 1` never involves
strings). -/
theorem pyEq_str_right (v : JVal) (s : String) : pyEq v (.str s) = true ↔ v = .str s := by
  cases v <;> simp [pyEq]

theorem jget_pyDictSet_self (acc : List (String × JVal)) (k : String) (v : JVal) :
    jget (pyDictSet acc k v) k = some v := by
  induction acc with
  | nil => simp [pyDictSet, jget, List.find?]
  | cons kv rest ih =>
    obtain ⟨k', v'⟩ := kv
    by_cases h : k' = k
    · subst h
      simp [pyDictSet, jget, List.find?]
    · simp only [pyDictSet, if_neg h]
      have hbeq : (k' == k) = false := by simp [h]
      simp only [jget, List.find?, hbeq]
      exact ih

theorem jget_pyDictSet_ne (acc : List (String × JVal)) (k k₀ : String) (v : JVal)
    (h : k ≠ k₀) : jget (pyDictSet acc k v) k₀ = jget acc k₀ := by
  have hbk : (k == k₀) = false := by simp [h]
  induction acc with
  | nil => simp [pyDictSet, jget, List.find?, hbk]
  | cons kv rest ih =>
    obtain ⟨k', v'⟩ := kv
    by_cases hk : k' = k
    · subst hk
      have h1 : (k' == k₀) = false := by simp [h]
      simp [pyDictSet, jget, List.find?, h1]
    · simp only [pyDictSet, if_neg hk]
      by_cases h2 : k' = k₀
      · subst h2
        simp [jget, List.find?]
      · have h3 : (k' == k₀) = false := by simp [h2]
        simp only [jget, List.find?, h3]
        exact ih

/-! ## Claims -/

/-- Canonical JSON as the specification words it: "UTF-8 bytes of JSON
with keys sorted and no insignificant whitespace".  Stated for comparison
with the serialisation the code actually uses (`pyJsonDumps`, which keeps
Python's default separators `", "` and `": "`). -/
def specCanonicalJson (v : JVal) : String := jsonEmit "," ":" (sortDeep v)

/-- C1 (counterexample): at payload `{"a": 1}` and timestamp 0, the hash
recorded by `add_entry` differs from SHA-256 over the genesis hash, the
whitespace-free canonical JSON of the payload, and the timestamp text,
because the code serialises with `json.dumps`'s default separators, which
insert a space after `":"` and `","`. -/
theorem c1_counterexample :
    HashChain.add_entry (.str HashChain.genesisHash) (.obj [("a", .num 1)]) (.num 0)
        ≠ sha256 (HashChain.genesisHash ++ specCanonicalJson (.obj [("a", .num 1)]) ++ "0")
    ∧ specCanonicalJson (.obj [("a", .num 1)]) = "\x7b\"a\":1\x7d"
    ∧ pyJsonDumps (.obj [("a", .num 1)]) = "\x7b\"a\": 1\x7d" := by
  refine ⟨by decide, by decide, by decide⟩

/-- C1 (amended): for every chain head, dict payload `d` and timestamp
`t`, the hash recorded by `add_entry` is SHA-256 of the previous hash,
then `json.dumps(d, sort_keys=True)` with Python's default separators
(`", "`, `": "` — WITH a space after each), then `str(t)`; the genesis
constant is SHA-256 of `"genesis"`, and the first entry appended to a
fresh log stores it as `previous_hash`. -/
theorem c1_amended (current : JVal) (kvs : List (String × JVal)) (ts : JVal) :
    HashChain.add_entry current (.obj kvs) ts
        = sha256 (pyStr current ++ pyJsonDumps (.obj kvs) ++ pyStr ts)
    ∧ HashChain.genesisHash = sha256 "genesis"
    ∧ objGet (ImmutableLog.mkLogEntry ImmutableLog.initLog (.obj kvs) ts) "previous_hash"
        = some (.str HashChain.genesisHash) :=
  ⟨rfl, rfl, rfl⟩

/-- C5 (counterexample): the empty tree and the normalized tree
`{"x": 1}` agree on the recursive (role, type, children) projection at
every node — both project to `{"type": None, "role": None}` — yet their
structural signatures differ, because the empty tree is special-cased to
the hash of the empty string. -/
theorem c5_counterexample :
    SignatureGenerator.extractStructure (.obj [])
        = SignatureGenerator.extractStructure (.obj [("x", .num 1)])
    ∧ TreeNormalizer.normalize (.obj []) = .obj []
    ∧ TreeNormalizer.normalize (.obj [("x", .num 1)]) = .obj [("x", .num 1)]
    ∧ SignatureGenerator.generate_structural (.obj [])
        ≠ SignatureGenerator.generate_structural (.obj [("x", .num 1)]) := by
  refine ⟨by decide, by decide, by decide, by decide⟩

/-- C5 (amended): for non-empty trees the structural signature is SHA-256
of the compact canonical JSON of the recursive (role, type, children)
projection and depends on nothing else: trees agreeing on the projection
at every node get equal signatures even when names or other content
differ.  The empty tree is special-cased to SHA-256 of the empty
string. -/
theorem c5_amended (t1 t2 : JVal) (h1 : truthy t1 = true) (h2 : truthy t2 = true)
    (hp : SignatureGenerator.extractStructure t1 = SignatureGenerator.extractStructure t2) :
    SignatureGenerator.generate_structural t1 = SignatureGenerator.generate_structural t2
    ∧ SignatureGenerator.generate_structural t1
        = sha256 (pyJsonDumpsCompact (SignatureGenerator.extractStructure t1)) := by
  unfold SignatureGenerator.generate_structural
  rw [h1, h2, hp]
  simp

/-- C5 (witness): two distinct truthy trees with the same projection have
the same structural signature. -/
theorem c5_witness :
    SignatureGenerator.generate_structural (.obj [("role", .str "w")])
      = SignatureGenerator.generate_structural (.obj [("role", .str "w"), ("name", .str "n")]) :=
  (c5_amended (.obj [("role", .str "w")]) (.obj [("role", .str "w"), ("name", .str "n")])
    (by decide) (by decide) (by decide)).1

/-- C6 (counterexample): a template whose `valid_transitions` lists the
transition in the `"<from> -> <to>"` form is nonetheless reported
invalid: `check_transition` only matches the bare target id. -/
theorem c6_counterexample :
    (TransitionChecker.check_transition
        (.obj [("screen_id", .str "a"), ("valid_transitions", .arr [.str "a -> b"])])
        "b").is_valid = false
    ∧ objGet (.obj [("screen_id", .str "a"), ("valid_transitions", .arr [.str "a -> b"])])
        "valid_transitions" = some (.arr [.str ("a" ++ " -> " ++ "b")]) := by
  refine ⟨by decide, by decide⟩

/-- C6 (amended): with a list-valued `valid_transitions`, the transition
is reported valid exactly when the source template is falsy, the list is
empty, or the bare target id is listed (the `"<from> -> <to>"` form is
not recognised); whenever it is invalid the expected list is returned. -/
theorem c6_amended (tpl : JVal) (toId : String) (l : List JVal)
    (hl : objGetD tpl "valid_transitions" (.arr []) = .arr l) :
    ((TransitionChecker.check_transition tpl toId).is_valid = true
        ↔ (truthy tpl = false ∨ l = [] ∨ (.str toId) ∈ l))
    ∧ ((TransitionChecker.check_transition tpl toId).is_valid = false →
        (TransitionChecker.check_transition tpl toId).expected = some (.arr l)) := by
  unfold TransitionChecker.check_transition
  by_cases ht : truthy tpl = true
  · rw [hl]
    simp only [ht, Bool.true_eq_false, not_true_eq_false, if_neg, ite_not]
    by_cases hl0 : l = []
    · subst hl0
      simp [truthy]
    · have htl : truthy (.arr l) = true := by
        simp [truthy, List.isEmpty_iff, hl0]
      simp only [htl, Bool.true_eq_false, not_true_eq_false, if_false, ite_not]
      by_cases hmem : (JVal.str toId) ∈ l
      · have hany : l.any (fun v => pyEq v (.str toId)) = true := by
          rw [List.any_eq_true]
          exact ⟨.str toId, hmem, pyEq_str_self toId⟩
        simp [hany, ht, hl0, hmem]
      · have hany : l.any (fun v => pyEq v (.str toId)) = false := by
          rw [Bool.eq_false_iff, Ne, List.any_eq_true]
          rintro ⟨v, hv, hpe⟩
          exact hmem ((pyEq_str_right v toId).mp hpe ▸ hv)
        simp [hany, ht, hl0, hmem]
  · have ht' : truthy tpl = false := by simpa using ht
    simp [ht']

/-- C6 (witness): a listed bare target id is accepted. -/
theorem c6_witness :
    (TransitionChecker.check_transition (.obj [("valid_transitions", .arr [.str "b"])])
      "b").is_valid = true :=
  (c6_amended (.obj [("valid_transitions", .arr [.str "b"])]) "b" [.str "b"]
      (by decide)).1.mpr (Or.inr (Or.inr (by decide)))

/-- C7 (counterexample): after loading a log with one malformed line,
`verify_integrity` is false, yet `append` still succeeds and caches a new
entry — appends are not rejected. -/
theorem c7_counterexample :
    ImmutableLog.verify_integrity (ImmutableLog.loadLog [none]) = false
    ∧ (ImmutableLog.append (ImmutableLog.loadLog [none])
        (.obj [("x", .num 1)]) (.num 5)).2.entries.length = 1 := by
  refine ⟨by decide, by decide⟩

/-- Loading a parsed line never clears the error flag. -/
theorem loadLine_loadError (s : LogState) (line : Option JVal) (h : s.loadError = true) :
    (ImmutableLog.loadLine s line).loadError = true := by
  cases line with
  | none => simp [ImmutableLog.loadLine]
  | some entry =>
    unfold ImmutableLog.loadLine
    cases entry with
    | obj kvs =>
      cases hd : (jget kvs "data").isNone with
      | true =>
        simp only [hd, if_true]
        exact h
      | false =>
        simp only [hd, Bool.false_eq_true, if_false]
        cases hj : jget kvs "entry_hash" <;> simp [hj, h]
    | null => exact h
    | bool b => exact h
    | num n => exact h
    | str a => exact h
    | arr xs => exact h

theorem loadError_monotone (lines : List (Option JVal)) (s : LogState)
    (h : s.loadError = true) :
    (lines.foldl ImmutableLog.loadLine s).loadError = true := by
  induction lines generalizing s with
  | nil => exact h
  | cons line rest ih => exact ih _ (loadLine_loadError s line h)

theorem loadLog_loadError (lines : List (Option JVal)) (h : none ∈ lines) :
    (ImmutableLog.loadLog lines).loadError = true := by
  unfold ImmutableLog.loadLog
  generalize ImmutableLog.initLog = s
  induction lines generalizing s with
  | nil => cases h
  | cons line rest ih =>
    simp only [List.foldl_cons]
    rcases List.mem_cons.mp h with h1 | h2
    · cases h1
      exact loadError_monotone rest _ (by simp [ImmutableLog.loadLine])
    · exact ih h2 _

/-- C7 (amended): after a malformed line marks the log as load-error on
open, `verify_integrity` returns false (the parse error is caught, not
propagated), but further appends are still accepted: each `append` grows
the cached entries by one and leaves the log in the flagged state. -/
theorem c7_amended (lines : List (Option JVal)) (ev now : JVal) (h : none ∈ lines) :
    ImmutableLog.verify_integrity (ImmutableLog.loadLog lines) = false
    ∧ (ImmutableLog.append (ImmutableLog.loadLog lines) ev now).2.entries.length
        = (ImmutableLog.loadLog lines).entries.length + 1
    ∧ ImmutableLog.verify_integrity (ImmutableLog.append (ImmutableLog.loadLog lines) ev now).2
        = false := by
  have hle := loadLog_loadError lines h
  refine ⟨?_, ?_, ?_⟩
  · simp [ImmutableLog.verify_integrity, hle]
  · simp [ImmutableLog.append]
  · simp [ImmutableLog.verify_integrity, ImmutableLog.append, hle]

/-- C7 (witness): a log loaded from a single malformed line fails
integrity, yet an append still extends it. -/
theorem c7_witness :
    ImmutableLog.verify_integrity (ImmutableLog.loadLog [none]) = false
    ∧ (ImmutableLog.append (ImmutableLog.loadLog [none])
        (.obj [("y", .num 2)]) (.num 7)).2.entries.length
        = (ImmutableLog.loadLog [none]).entries.length + 1 :=
  ⟨(c7_amended [none] (.obj [("y", .num 2)]) (.num 7) (by simp)).1,
   (c7_amended [none] (.obj [("y", .num 2)]) (.num 7) (by simp)).2.1⟩

theorem propertyMapping_eq_role {k : String} (h : TreeNormalizer.propertyMapping k = "role") :
    k = "role" := by
  unfold TreeNormalizer.propertyMapping at h
  by_cases hc : k = "label" ∨ k = "title" ∨ k = "text" ∨ k = "description"
  · rw [if_pos hc] at h
    exact absurd h (by decide)
  · rwa [if_neg hc] at h

/-- Items whose keys are not `role` never write the `role` slot. -/
theorem normItems_jget_role_stable :
    ∀ (rest acc : List (String × JVal)),
    (∀ p ∈ rest, p.1 ≠ "role") →
    jget (TreeNormalizer.normItems acc rest) "role" = jget acc "role" := by
  intro rest
  induction rest with
  | nil => intro acc _; rw [TreeNormalizer.normItems_nil]
  | cons kv rest ihr =>
    obtain ⟨k, v⟩ := kv
    intro acc h
    have hk : k ≠ "role" := h (k, v) (List.mem_cons_self _ _)
    have hrest : ∀ p ∈ rest, p.1 ≠ "role" := fun p hp => h p (List.mem_cons_of_mem _ hp)
    have hpm : TreeNormalizer.propertyMapping k ≠ "role" :=
      fun hc => hk (propertyMapping_eq_role hc)
    have hch : ("children" : String) ≠ "role" := by decide
    by_cases ht : k ∈ TreeNormalizer.transientProps
    · rw [TreeNormalizer.normItems_transient acc k v rest ht]
      exact ihr acc hrest
    · cases v with
      | arr cs =>
        rw [TreeNormalizer.normItems_arr acc k cs rest ht]
        by_cases hc : k = "children"
        · rw [if_pos hc, ihr _ hrest, jget_pyDictSet_ne _ _ _ _ hch]
        · rw [if_neg hc, ihr _ hrest, jget_pyDictSet_ne _ _ _ _ hpm]
      | obj kvs2 =>
        rw [TreeNormalizer.normItems_obj acc k kvs2 rest ht,
            ihr _ hrest, jget_pyDictSet_ne _ _ _ _ hpm]
      | null =>
        rw [TreeNormalizer.normItems_null acc k rest ht,
            ihr _ hrest, jget_pyDictSet_ne _ _ _ _ hpm]
      | bool b =>
        rw [TreeNormalizer.normItems_bool acc k b rest ht,
            ihr _ hrest, jget_pyDictSet_ne _ _ _ _ hpm]
      | num n =>
        rw [TreeNormalizer.normItems_num acc k n rest ht,
            ihr _ hrest, jget_pyDictSet_ne _ _ _ _ hpm]
      | str a =>
        rw [TreeNormalizer.normItems_str acc k a rest ht,
            ihr _ hrest, jget_pyDictSet_ne _ _ _ _ hpm]

/-- A string-valued `role` entry survives `normItems` verbatim. -/
theorem normItems_jget_role :
    ∀ (kvs : List (String × JVal)) (acc : List (String × JVal)) (r : String),
    ("role", JVal.str r) ∈ kvs → (kvs.map Prod.fst).Nodup →
    jget (TreeNormalizer.normItems acc kvs) "role" = some (.str r) := by
  intro kvs
  induction kvs with
  | nil => intro acc r hmem _; exact absurd hmem (List.not_mem_nil _)
  | cons kv rest ihr =>
    obtain ⟨k, v⟩ := kv
    intro acc r hmem hnd
    have hnd' : (rest.map Prod.fst).Nodup := (List.nodup_cons.mp hnd).2
    rcases List.mem_cons.mp hmem with heq | hmem'
    · injection heq with hk hv
      subst hk
      subst hv
      have ht : ("role" : String) ∉ TreeNormalizer.transientProps := by decide
      rw [show TreeNormalizer.normItems acc (("role", JVal.str r) :: rest)
            = TreeNormalizer.normItems (pyDictSet acc "role" (.str r)) rest from
          TreeNormalizer.normItems_str acc "role" r rest ht]
      have hnr : ∀ p ∈ rest, p.1 ≠ "role" := by
        intro p hp hcon
        have hmm : p.1 ∈ rest.map Prod.fst := List.mem_map_of_mem Prod.fst hp
        rw [hcon] at hmm
        exact (List.nodup_cons.mp hnd).1 hmm
      rw [normItems_jget_role_stable rest _ hnr, jget_pyDictSet_self]
    · have hk : k ≠ "role" := by
        intro hcon
        subst hcon
        have hmm : ("role" : String) ∈ rest.map Prod.fst :=
          List.mem_map_of_mem Prod.fst hmem'
        exact (List.nodup_cons.mp hnd).1 hmm
      by_cases ht : k ∈ TreeNormalizer.transientProps
      · rw [TreeNormalizer.normItems_transient acc k v rest ht]
        exact ihr acc r hmem' hnd'
      · cases v with
        | arr cs =>
          rw [TreeNormalizer.normItems_arr acc k cs rest ht]
          by_cases hc : k = "children"
          · rw [if_pos hc]; exact ihr _ r hmem' hnd'
          · rw [if_neg hc]; exact ihr _ r hmem' hnd'
        | obj kvs2 =>
          rw [TreeNormalizer.normItems_obj acc k kvs2 rest ht]
          exact ihr _ r hmem' hnd'
        | null =>
          rw [TreeNormalizer.normItems_null acc k rest ht]
          exact ihr _ r hmem' hnd'
        | bool b =>
          rw [TreeNormalizer.normItems_bool acc k b rest ht]
          exact ihr _ r hmem' hnd'
        | num n =>
          rw [TreeNormalizer.normItems_num acc k n rest ht]
          exact ihr _ r hmem' hnd'
        | str a =>
          rw [TreeNormalizer.normItems_str acc k a rest ht]
          exact ihr _ r hmem' hnd'

theorem eventDictOf_ne_null (ev : JVal) : ImmutableLog.eventDictOf ev ≠ JVal.null := by
  cases ev <;> simp [ImmutableLog.eventDictOf]

/-- Every chain built by successive appends verifies: the running hash at
each step matches the recomputation, whatever the events and clocks. -/
theorem verifyChainGo_built :
    ∀ (evs : List (JVal × JVal)) (s : LogState) (idx : Nat),
      (s.entries = [] → s.currentHash = .str HashChain.genesisHash) →
      (∃ h0, s.currentHash = .str h0) →
      HashChain.verifyChainGo s.currentHash idx (ImmutableLog.builtEntries s evs)
        = (true, []) := by
  intro evs
  induction evs with
  | nil =>
    intro s idx _ _
    rfl
  | cons p rest ih =>
    obtain ⟨ev, now⟩ := p
    rintro s idx hgen ⟨h0, hcur⟩
    have hstep : ImmutableLog.builtEntries s ((ev, now) :: rest)
        = ImmutableLog.mkLogEntry s ev now
            :: ImmutableLog.builtEntries (ImmutableLog.append s ev now).2 rest := rfl
    rw [hstep, HashChain.verifyChainGo]
    have hgetEH : (objGet (ImmutableLog.mkLogEntry s ev now) "entry_hash").getD .null
        = .str (HashChain.add_entry s.currentHash (ImmutableLog.eventDictOf ev)
            (ImmutableLog.timestampOf (ImmutableLog.eventDictOf ev) now)) := rfl
    have hgetPrev : (objGet (ImmutableLog.mkLogEntry s ev now) "previous_hash").getD .null
        = if s.entries.isEmpty then .str HashChain.genesisHash else s.currentHash := rfl
    have hgetTs : (objGet (ImmutableLog.mkLogEntry s ev now) "timestamp").getD .null
        = ImmutableLog.timestampOf (ImmutableLog.eventDictOf ev) now := rfl
    have hgetData : (objGet (ImmutableLog.mkLogEntry s ev now) "data").getD .null
        = ImmutableLog.eventDictOf ev := rfl
    rw [hgetEH, hgetPrev, hgetTs, hgetData]
    have htr : truthy (.str (HashChain.add_entry s.currentHash (ImmutableLog.eventDictOf ev)
        (ImmutableLog.timestampOf (ImmutableLog.eventDictOf ev) now))) = true :=
      truthy_sha256 _
    rw [if_pos htr]
    have hprev_eq : pyEq (if s.entries.isEmpty then .str HashChain.genesisHash
        else s.currentHash) s.currentHash = true := by
      cases he : s.entries.isEmpty with
      | true =>
        have := hgen (List.isEmpty_iff.mp he)
        rw [if_pos rfl, this]
        exact pyEq_str_self _
      | false =>
        rw [if_neg (by simp)]
        rw [hcur]
        exact pyEq_str_self _
    have hih := ih (ImmutableLog.append s ev now).2 (idx + 1)
      (by
        intro hcon
        have : s.entries ++ [ImmutableLog.mkLogEntry s ev now] = [] := hcon
        simp at this)
      ⟨HashChain.add_entry s.currentHash (ImmutableLog.eventDictOf ev)
          (ImmutableLog.timestampOf (ImmutableLog.eventDictOf ev) now), rfl⟩
    have hs'cur : (ImmutableLog.append s ev now).2.currentHash
        = .str (HashChain.add_entry s.currentHash (ImmutableLog.eventDictOf ev)
            (ImmutableLog.timestampOf (ImmutableLog.eventDictOf ev) now)) := rfl
    rw [hs'cur] at hih
    have hHne : JVal.str (HashChain.add_entry s.currentHash (ImmutableLog.eventDictOf ev)
        (ImmutableLog.timestampOf (ImmutableLog.eventDictOf ev) now)) ≠ JVal.null := by
      intro hc
      cases hc
    rw [if_neg hHne]
    by_cases hts : ImmutableLog.timestampOf (ImmutableLog.eventDictOf ev) now = JVal.null
    · rw [if_pos (Or.inr hts)]
      have hcond : ¬(idx > 0 ∧ truthy (if truthy (if s.entries.isEmpty
            then JVal.str HashChain.genesisHash else s.currentHash)
          then (if s.entries.isEmpty then JVal.str HashChain.genesisHash else s.currentHash)
          else (objGet (ImmutableLog.mkLogEntry s ev now) "prev").getD .null) = true
          ∧ ¬(pyEq (if truthy (if s.entries.isEmpty
              then JVal.str HashChain.genesisHash else s.currentHash)
            then (if s.entries.isEmpty then JVal.str HashChain.genesisHash else s.currentHash)
            else (objGet (ImmutableLog.mkLogEntry s ev now) "prev").getD .null)
            s.currentHash = true)) := by
        cases hta : truthy (if s.entries.isEmpty then JVal.str HashChain.genesisHash
            else s.currentHash) with
        | true =>
          rw [if_pos rfl]
          rintro ⟨_, _, hne⟩
          exact hne hprev_eq
        | false =>
          rw [if_neg (by simp)]
          have hprevnull : (objGet (ImmutableLog.mkLogEntry s ev now) "prev").getD .null
              = JVal.null := rfl
          rw [hprevnull]
          rintro ⟨_, htt, _⟩
          exact Bool.false_ne_true htt
      rw [if_neg hcond]
      exact hih
    · rw [if_neg (by
        rintro (hdn | htn)
        · exact eventDictOf_ne_null ev hdn
        · exact hts htn)]
      have hver : HashChain.verify_entry
          (.str (HashChain.add_entry s.currentHash (ImmutableLog.eventDictOf ev)
            (ImmutableLog.timestampOf (ImmutableLog.eventDictOf ev) now)))
          (ImmutableLog.eventDictOf ev)
          (ImmutableLog.timestampOf (ImmutableLog.eventDictOf ev) now)
          s.currentHash = true := by
        unfold HashChain.verify_entry HashChain.add_entry
        exact pyEq_str_self _
      rw [if_pos hver]
      exact hih

/-- C2 (counterexample): `verify_chain` accepts a single-entry chain whose
stored `previous_hash` is garbage (`"beef"`), because the recomputation
uses the running hash (genesis), not the stored field; recomputing with
the stored `previous_hash` fails. -/
theorem c2_counterexample :
    HashChain.verify_chain
        [.obj [("entry_hash",
                .str "01216e8dbb94f9239ccbccb2b5bd9a46b1357b5b57f97de86007fb1252c72666"),
               ("previous_hash", .str "beef"),
               ("timestamp", .num 0),
               ("data", .obj [("a", .num 1)])]]
      = (true, [])
    ∧ HashChain.verify_entry
        (.str "01216e8dbb94f9239ccbccb2b5bd9a46b1357b5b57f97de86007fb1252c72666")
        (.obj [("a", .num 1)]) (.num 0) (.str "beef") = false := by
  refine ⟨by decide, by decide⟩

/-- C2 (amended): every list of entries produced by successive appends
passes `verify_chain`; verification walks the entries in order starting
from the genesis hash and recomputes each entry's hash from the RUNNING
previous hash (genesis, then each entry's own hash) together with the
stored data and timestamp — the stored `previous_hash` field is only
consistency-checked on entries missing data or timestamp — and on any
mismatch fails immediately, reporting that entry's index. -/
theorem c2_amended (evs : List (JVal × JVal)) :
    HashChain.verify_chain (ImmutableLog.appendAll ImmutableLog.initLog evs).entries
      = (true, [])
    ∧ ImmutableLog.verify_integrity (ImmutableLog.appendAll ImmutableLog.initLog evs)
      = true := by
  have hentries : ∀ (s : LogState) (evs : List (JVal × JVal)),
      (ImmutableLog.appendAll s evs).entries = s.entries ++ ImmutableLog.builtEntries s evs := by
    intro s evs
    induction evs generalizing s with
    | nil => simp [ImmutableLog.appendAll, ImmutableLog.builtEntries]
    | cons p rest ih =>
      obtain ⟨ev, now⟩ := p
      rw [ImmutableLog.appendAll, ImmutableLog.builtEntries, ih]
      have : (ImmutableLog.append s ev now).2.entries
          = s.entries ++ [ImmutableLog.mkLogEntry s ev now] := rfl
      rw [this]
      simp
  have hle : (ImmutableLog.appendAll ImmutableLog.initLog evs).loadError = false := by
    have : ∀ (s : LogState) (evs : List (JVal × JVal)),
        (ImmutableLog.appendAll s evs).loadError = s.loadError := by
      intro s evs
      induction evs generalizing s with
      | nil => rfl
      | cons p rest ih =>
        obtain ⟨ev, now⟩ := p
        rw [ImmutableLog.appendAll, ih]
        rfl
    exact this ImmutableLog.initLog evs
  have hvc : HashChain.verify_chain (ImmutableLog.appendAll ImmutableLog.initLog evs).entries
      = (true, []) := by
    rw [hentries]
    have hinit : (ImmutableLog.initLog.entries : List JVal) = [] := rfl
    rw [hinit, List.nil_append]
    cases hbe : ImmutableLog.builtEntries ImmutableLog.initLog evs with
    | nil => rfl
    | cons e es =>
      unfold HashChain.verify_chain
      rw [if_neg (by simp)]
      have := verifyChainGo_built evs ImmutableLog.initLog 0 (fun _ => rfl)
        ⟨HashChain.genesisHash, rfl⟩
      rw [hbe] at this
      exact this
  refine ⟨hvc, ?_⟩
  unfold ImmutableLog.verify_integrity
  rw [hle, hvc]
  simp

/-- C3 (confirmed): normalization is idempotent — for every input tree
`t`, `normalize (normalize t) = normalize t`: the first pass strips
transients, folds aliases, normalises nested dicts and rebuilds
`children` lists sorted and truthy-filtered, and a second pass finds
nothing left to change. -/
theorem c3_normalize_idempotent (t : JVal) :
    TreeNormalizer.normalize (TreeNormalizer.normalize t) = TreeNormalizer.normalize t := by
  cases htr : truthy t with
  | false =>
    rw [TreeNormalizer.normalize_not_truthy t htr,
        TreeNormalizer.normalize_not_truthy _ (by decide)]
  | true =>
    cases t with
    | null => simp [truthy] at htr
    | bool b =>
      rw [TreeNormalizer.normalize_bool b htr, TreeNormalizer.normalize_bool b htr]
    | num n =>
      rw [TreeNormalizer.normalize_num n htr, TreeNormalizer.normalize_num n htr]
    | str s =>
      rw [TreeNormalizer.normalize_str s htr, TreeNormalizer.normalize_str s htr]
    | arr xs =>
      rw [TreeNormalizer.normalize_arr xs htr, TreeNormalizer.normalize_arr xs htr]
    | obj kvs =>
      rw [TreeNormalizer.normalize_obj_truthy kvs htr]
      cases hM : truthy (JVal.obj ((kvs.map
          (fun kv => if kv.1 = "root" then (kv.1, TreeNormalizer.normalizeNode kv.2) else kv)).filter
            (fun kv => kv.1 ∉ TreeNormalizer.transientProps))) with
      | false =>
        rw [TreeNormalizer.normalize_not_truthy _ hM]
        have hnil : ((kvs.map
            (fun kv => if kv.1 = "root" then (kv.1, TreeNormalizer.normalizeNode kv.2) else kv)).filter
              (fun kv => kv.1 ∉ TreeNormalizer.transientProps)) = [] := by
          simpa [truthy, List.isEmpty_iff] using hM
        rw [hnil]
      | true =>
        rw [TreeNormalizer.normalize_obj_truthy _ hM]
        have hmem : ∀ p ∈ (kvs.map
            (fun kv => if kv.1 = "root" then (kv.1, TreeNormalizer.normalizeNode kv.2) else kv)).filter
              (fun kv => kv.1 ∉ TreeNormalizer.transientProps),
            p.1 ∉ TreeNormalizer.transientProps ∧
            (if p.1 = "root" then (p.1, TreeNormalizer.normalizeNode p.2) else p) = p := by
          intro p hp
          have hp' := List.mem_filter.mp hp
          refine ⟨by simpa using hp'.2, ?_⟩
          obtain ⟨kv, hkv, hfkv⟩ := List.mem_map.mp hp'.1
          by_cases hr : kv.1 = "root"
          · rw [if_pos hr] at hfkv
            have hp1 : p.1 = "root" := by rw [← hfkv]; exact hr
            rw [if_pos hp1, ← hfkv]
            exact congrArg (Prod.mk kv.1) (TreeNormalizer.normalizeNode_idem kv.2)
          · rw [if_neg hr] at hfkv
            rw [← hfkv, if_neg hr]
        congr 1
        have h1 : ((kvs.map
            (fun kv => if kv.1 = "root" then (kv.1, TreeNormalizer.normalizeNode kv.2) else kv)).filter
              (fun kv => kv.1 ∉ TreeNormalizer.transientProps)).map
            (fun kv => if kv.1 = "root" then (kv.1, TreeNormalizer.normalizeNode kv.2) else kv)
            = ((kvs.map
            (fun kv => if kv.1 = "root" then (kv.1, TreeNormalizer.normalizeNode kv.2) else kv)).filter
              (fun kv => kv.1 ∉ TreeNormalizer.transientProps)).map id :=
          List.map_congr_left (fun p hp => (hmem p hp).2)
        rw [h1, List.map_id]
        exact List.filter_eq_self.mpr (fun p hp => by simpa using (hmem p hp).1)

/-- C4 (counterexample): normalizing a tree whose root has role
`"Button"` returns it unchanged: the role string in the canonical output
is `"Button"`, which is not lowercase. -/
theorem c4_counterexample :
    TreeNormalizer.normalize (.obj [("root", .obj [("role", .str "Button")])])
        = .obj [("root", .obj [("role", .str "Button")])]
    ∧ 'B' ∈ "Button".data ∧ 'B'.isLower = false
    ∧ "Button" ≠ "button" := by
  refine ⟨?_, by decide, by decide, by decide⟩
  have h1 : TreeNormalizer.normalizeNode (.obj [("role", .str "Button")])
      = .obj [("role", .str "Button")] := by
    rw [TreeNormalizer.normalizeNode_cons,
        TreeNormalizer.normItems_str [] "role" "Button" [] (by decide),
        TreeNormalizer.normItems_nil]
    rfl
  simp [TreeNormalizer.normalize, truthy, h1, TreeNormalizer.transientProps]

/-- C4 (amended): normalization copies every node's `role` value through
verbatim — `_normalize_node` neither lowercases nor otherwise rewrites
it: a node with a string `role` keeps exactly that string. -/
theorem c4_amended (kvs : List (String × JVal)) (r : String)
    (hmem : ("role", JVal.str r) ∈ kvs) (hnd : (kvs.map Prod.fst).Nodup) :
    objGet (TreeNormalizer.normalizeNode (.obj kvs)) "role" = some (.str r) := by
  cases kvs with
  | nil => exact absurd hmem (List.not_mem_nil _)
  | cons kv rest =>
    rw [TreeNormalizer.normalizeNode_cons]
    exact normItems_jget_role (kv :: rest) [] r hmem hnd

/-- C4 (witness): a mixed-case role survives normalization unchanged. -/
theorem c4_witness :
    objGet (TreeNormalizer.normalizeNode
        (.obj [("role", .str "BuTTon"), ("name", .str "n")])) "role"
      = some (.str "BuTTon") :=
  c4_amended [("role", .str "BuTTon"), ("name", .str "n")] "BuTTon"
    (by decide) (by decide)

/-- The claim's admission rule, stated directly from its words: reject
when the count of previously recorded requests within the last 60 seconds
reaches `rpm` or the count within the last 5 seconds reaches `burst`;
record the timestamp only on accept.  `A` is the list of recorded times
so far; the result lists the newly accepted times. -/
def specAcceptGo {α : Type} [LinearOrderedCommRing α] (rpm burst : ℕ) (A : List α) :
    List α → List α
  | [] => []
  | t :: ts =>
    if burst ≤ (A.filter (fun a => t - 5 < a)).length
        ∨ rpm ≤ (A.filter (fun a => t - 60 ≤ a)).length
    then specAcceptGo rpm burst A ts
    else t :: specAcceptGo rpm burst (A ++ [t]) ts

/-- The claim-side accepted times of a fresh client's call sequence. -/
def specAccepted {α : Type} [LinearOrderedCommRing α] (rpm burst : ℕ) (ts : List α) : List α :=
  specAcceptGo rpm burst [] ts

theorem length_filter_mono {α : Type} (l : List α) (p q : α → Bool)
    (h : ∀ a ∈ l, p a = true → q a = true) :
    (l.filter p).length ≤ (l.filter q).length := by
  induction l with
  | nil => simp
  | cons a l ih =>
    have ih' := ih (fun a ha => h a (List.mem_cons_of_mem _ ha))
    by_cases hp : p a = true
    · rw [List.filter_cons_of_pos hp, List.filter_cons_of_pos (h a (List.mem_cons_self _ _) hp)]
      simpa using ih'
    · rw [List.filter_cons_of_neg (by simpa using hp)]
      by_cases hq : q a = true
      · rw [List.filter_cons_of_pos hq]
        exact le_trans ih' (by simp)
      · rw [List.filter_cons_of_neg (by simpa using hq)]
        exact ih'

/-- Bounded-window counting: if every element of `L`, at the moment it
was placed, saw fewer than `limit` earlier elements under its own
condition, and any two members of a length-`δ` window satisfy each
other's condition, then no window of length `δ` holds more than `limit`
elements. -/
theorem window_bound {α : Type} [LinearOrderedCommRing α] (limit : ℕ) (δ : α)
    (cond : α → α → Bool)
    (hc : ∀ t w a, w < a → a ≤ w + δ → w < t → t ≤ w + δ → cond t a = true) :
    ∀ L : List α,
      (∀ B t C, L = B ++ t :: C → (B.filter (cond t)).length < limit) →
      ∀ w, (L.filter (fun a => decide (w < a) && decide (a ≤ w + δ))).length ≤ limit := by
  intro L
  induction L using List.reverseRecOn with
  | nil => intro _ w; simp
  | append_singleton B t ih =>
    intro hP w
    have hPB : ∀ B' t' C', B = B' ++ t' :: C' → (B'.filter (cond t')).length < limit := by
      intro B' t' C' hsplit
      exact hP B' t' (C' ++ [t]) (by rw [hsplit]; simp)
    rw [List.filter_append, List.length_append]
    by_cases hin : (decide (w < t) && decide (t ≤ w + δ)) = true
    · have hwt : w < t ∧ t ≤ w + δ := by simpa using hin
      have hself : (B.filter (cond t)).length < limit := hP B t [] rfl
      have hmono : (B.filter (fun a => decide (w < a) && decide (a ≤ w + δ))).length
          ≤ (B.filter (cond t)).length := by
        apply length_filter_mono
        intro a _ hpa
        have hwa : w < a ∧ a ≤ w + δ := by simpa using hpa
        exact hc t w a hwa.1 hwa.2 hwt.1 hwt.2
      have hone : (([t] : List α).filter
          (fun a => decide (w < a) && decide (a ≤ w + δ))).length ≤ 1 := by
        simp [List.filter]
        split <;> simp
      omega
    · have hzero : (([t] : List α).filter
          (fun a => decide (w < a) && decide (a ≤ w + δ))).length = 0 := by
        simp only [List.filter, hin]
        rfl
      rw [hzero]
      have := ih hPB w
      omega

/-- Every accepted time, at its own admission, saw fewer than `burst`
recorded times in its 5-second lookback and fewer than `rpm` in its
60-second lookback. -/
theorem specAcceptGo_precondition {α : Type} [LinearOrderedCommRing α] (rpm burst : ℕ) :
    ∀ (ts A B : List α) (t : α) (C : List α),
      A ++ specAcceptGo rpm burst A ts = B ++ t :: C →
      A.length ≤ B.length →
      (B.filter (fun a => decide (t - 5 < a))).length < burst
      ∧ (B.filter (fun a => decide (t - 60 ≤ a))).length < rpm := by
  intro ts
  induction ts with
  | nil =>
    intro A B t C heq hlen
    exfalso
    have := congrArg List.length heq
    simp [specAcceptGo] at this
    omega
  | cons t0 ts' ih =>
    intro A B t C heq hlen
    by_cases hrej : burst ≤ (A.filter (fun a => decide (t0 - 5 < a))).length
        ∨ rpm ≤ (A.filter (fun a => decide (t0 - 60 ≤ a))).length
    · rw [show specAcceptGo rpm burst A (t0 :: ts') = specAcceptGo rpm burst A ts' by
          rw [specAcceptGo, if_pos hrej]] at heq
      exact ih A B t C heq hlen
    · rw [show specAcceptGo rpm burst A (t0 :: ts')
            = t0 :: specAcceptGo rpm burst (A ++ [t0]) ts' by
          rw [specAcceptGo, if_neg hrej]] at heq
      rcases eq_or_lt_of_le hlen with hEq | hLt
      · have hinj := List.append_inj heq hEq
        obtain ⟨hAB, hcons⟩ := hinj
        injection hcons with ht0 _
        push_neg at hrej
        subst hAB
        subst ht0
        exact ⟨hrej.1, hrej.2⟩
      · have heq' : (A ++ [t0]) ++ specAcceptGo rpm burst (A ++ [t0]) ts' = B ++ t :: C := by
          rw [List.append_assoc]
          simpa using heq
        exact ih (A ++ [t0]) B t C heq' (by simp; omega)

/-- On a sorted queue, the front-popping cleanup is a filter. -/
theorem dropWhile_sorted_eq_filter {α : Type} [LinearOrder α] (c : α) :
    ∀ l : List α, l.Pairwise (· ≤ ·) →
      l.dropWhile (fun t => decide (t < c)) = l.filter (fun t => decide (c ≤ t)) := by
  intro l
  induction l with
  | nil => intro _; rfl
  | cons a l ih =>
    intro hp
    have hp' := (List.pairwise_cons.mp hp).2
    have hall := (List.pairwise_cons.mp hp).1
    by_cases ha : a < c
    · rw [List.dropWhile_cons_of_pos (by simpa using ha),
          List.filter_cons_of_neg (by simpa using not_le.mpr ha)]
      exact ih hp'
    · have hca : c ≤ a := le_of_not_lt ha
      rw [List.dropWhile_cons_of_neg (by simpa using ha),
          List.filter_cons_of_pos (by simpa using hca)]
      congr 1
      exact (List.filter_eq_self.mpr (fun b hb => by simpa using le_trans hca (hall b hb))).symm

/-- The scan of `check_rate_limit` agrees with the claim's admission
rule: starting from a queue holding the recorded times of `A` within 60
seconds of the previous call, the accepted times of the remaining calls
are exactly those the claim admits. -/
theorem processRequests_eq_spec {α : Type} [LinearOrderedCommRing α] (rpm burst : ℕ) :
    ∀ (ts A : List α) (tprev : α),
      A.Pairwise (· ≤ ·) → (∀ a ∈ A, a ≤ tprev) → List.Chain (· ≤ ·) tprev ts →
      (((RateLimiter.processRequests rpm burst
          (A.filter (fun a => decide (tprev - 60 ≤ a))) ts).1.filter (·.2)).map (·.1))
        = specAcceptGo rpm burst A ts := by
  intro ts
  induction ts with
  | nil => intro A tprev _ _ _; rfl
  | cons t0 ts' ih =>
    intro A tprev hs hub hchain
    have hprev_le : tprev ≤ t0 := List.rel_of_chain_cons hchain
    have hchain' : List.Chain (· ≤ ·) t0 ts' := List.chain_of_chain_cons hchain
    have hsf : (A.filter (fun a => decide (tprev - 60 ≤ a))).Pairwise (· ≤ ·) :=
      List.Pairwise.filter _ hs
    have hclean : RateLimiter.cleanupOldRequests
        (A.filter (fun a => decide (tprev - 60 ≤ a))) t0
        = A.filter (fun a => decide (t0 - 60 ≤ a)) := by
      unfold RateLimiter.cleanupOldRequests
      rw [dropWhile_sorted_eq_filter (t0 - 60) _ hsf, List.filter_filter]
      apply List.filter_congr
      intro a _
      by_cases h1 : t0 - 60 ≤ a
      · have h2 : tprev - 60 ≤ a := le_trans (by linarith) h1
        simp [h1, h2]
      · simp [h1]
    have hrecent : ((A.filter (fun a => decide (t0 - 60 ≤ a))).filter
          (fun a => decide (t0 - 5 < a))).length
        = (A.filter (fun a => decide (t0 - 5 < a))).length := by
      rw [List.filter_filter]
      congr 1
      apply List.filter_congr
      intro a _
      by_cases h1 : t0 - 5 < a
      · have h2 : t0 - 60 ≤ a := le_of_lt (lt_of_le_of_lt (by linarith) h1)
        simp [h1, h2]
      · simp [h1]
    have hstep : RateLimiter.check_rate_limit rpm burst
        (A.filter (fun a => decide (tprev - 60 ≤ a))) t0
        = (if burst ≤ ((A.filter (fun a => decide (t0 - 60 ≤ a))).filter
              (fun a => decide (t0 - 5 < a))).length then
             (false, A.filter (fun a => decide (t0 - 60 ≤ a)))
           else if rpm ≤ (A.filter (fun a => decide (t0 - 60 ≤ a))).length then
             (false, A.filter (fun a => decide (t0 - 60 ≤ a)))
           else
             (true, A.filter (fun a => decide (t0 - 60 ≤ a)) ++ [t0])) := by
      unfold RateLimiter.check_rate_limit
      rw [hclean]
    by_cases hb : burst ≤ (A.filter (fun a => decide (t0 - 5 < a))).length
    · have hb' : burst ≤ ((A.filter (fun a => decide (t0 - 60 ≤ a))).filter
          (fun a => decide (t0 - 5 < a))).length := by rw [hrecent]; exact hb
      have hrun : RateLimiter.processRequests rpm burst
          (A.filter (fun a => decide (tprev - 60 ≤ a))) (t0 :: ts')
          = ((t0, false) :: (RateLimiter.processRequests rpm burst
              (A.filter (fun a => decide (t0 - 60 ≤ a))) ts').1,
             (RateLimiter.processRequests rpm burst
              (A.filter (fun a => decide (t0 - 60 ≤ a))) ts').2) := by
        rw [RateLimiter.processRequests, hstep, if_pos hb']
      rw [hrun]
      rw [show specAcceptGo rpm burst A (t0 :: ts') = specAcceptGo rpm burst A ts' by
        rw [specAcceptGo, if_pos (Or.inl hb)]]
      have := ih A t0 hs (fun a ha => le_trans (hub a ha) hprev_le) hchain'
      simpa using this
    · by_cases hr : rpm ≤ (A.filter (fun a => decide (t0 - 60 ≤ a))).length
      · have hb' : ¬ burst ≤ ((A.filter (fun a => decide (t0 - 60 ≤ a))).filter
            (fun a => decide (t0 - 5 < a))).length := by rw [hrecent]; exact hb
        have hrun : RateLimiter.processRequests rpm burst
            (A.filter (fun a => decide (tprev - 60 ≤ a))) (t0 :: ts')
            = ((t0, false) :: (RateLimiter.processRequests rpm burst
                (A.filter (fun a => decide (t0 - 60 ≤ a))) ts').1,
               (RateLimiter.processRequests rpm burst
                (A.filter (fun a => decide (t0 - 60 ≤ a))) ts').2) := by
          rw [RateLimiter.processRequests, hstep, if_neg hb', if_pos hr]
        rw [hrun]
        rw [show specAcceptGo rpm burst A (t0 :: ts') = specAcceptGo rpm burst A ts' by
          rw [specAcceptGo, if_pos (Or.inr hr)]]
        have := ih A t0 hs (fun a ha => le_trans (hub a ha) hprev_le) hchain'
        simpa using this
      · have hb' : ¬ burst ≤ ((A.filter (fun a => decide (t0 - 60 ≤ a))).filter
            (fun a => decide (t0 - 5 < a))).length := by rw [hrecent]; exact hb
        have hrun : RateLimiter.processRequests rpm burst
            (A.filter (fun a => decide (tprev - 60 ≤ a))) (t0 :: ts')
            = ((t0, true) :: (RateLimiter.processRequests rpm burst
                (A.filter (fun a => decide (t0 - 60 ≤ a)) ++ [t0]) ts').1,
               (RateLimiter.processRequests rpm burst
                (A.filter (fun a => decide (t0 - 60 ≤ a)) ++ [t0]) ts').2) := by
          rw [RateLimiter.processRequests, hstep, if_neg hb', if_neg hr]
        rw [hrun]
        rw [show specAcceptGo rpm burst A (t0 :: ts')
              = t0 :: specAcceptGo rpm burst (A ++ [t0]) ts' by
          rw [specAcceptGo, if_neg (by push_neg; exact ⟨lt_of_not_le hb, lt_of_not_le hr⟩)]]
        have hq : A.filter (fun a => decide (t0 - 60 ≤ a)) ++ [t0]
            = (A ++ [t0]).filter (fun a => decide (t0 - 60 ≤ a)) := by
          rw [List.filter_append]
          congr 1
          simp
        have hs2 : (A ++ [t0]).Pairwise (· ≤ ·) := by
          rw [List.pairwise_append]
          exact ⟨hs, List.pairwise_singleton _ _,
            fun a ha b hb2 => by
              have : b = t0 := List.mem_singleton.mp hb2
              subst this
              exact le_trans (hub a ha) hprev_le⟩
        have hub2 : ∀ a ∈ A ++ [t0], a ≤ t0 := by
          intro a ha
          rcases List.mem_append.mp ha with h | h
          · exact le_trans (hub a h) hprev_le
          · exact le_of_eq (List.mem_singleton.mp h)
        have := ih (A ++ [t0]) t0 hs2 hub2 hchain'
        rw [hq]
        simpa using this

/-- C8 (confirmed): for nondecreasing request times, `check_rate_limit`
rejects a call exactly when the recorded count within the last 60 seconds
has reached `rpm` or the count within the last 5 seconds has reached
`burst`, recording the time only on accept; consequently no 5-second
window ever holds more than `burst` accepted requests and no 60-second
window more than `rpm`. -/
theorem c8_rate_limiter {α : Type} [LinearOrderedCommRing α] (rpm burst : ℕ) (ts : List α)
    (hts : ts.Chain' (· ≤ ·)) :
    RateLimiter.acceptedTimes rpm burst ts = specAccepted rpm burst ts
    ∧ (∀ w : α, ((RateLimiter.acceptedTimes rpm burst ts).filter
        (fun a => decide (w < a) && decide (a ≤ w + 5))).length ≤ burst)
    ∧ (∀ w : α, ((RateLimiter.acceptedTimes rpm burst ts).filter
        (fun a => decide (w < a) && decide (a ≤ w + 60))).length ≤ rpm) := by
  have heqspec : RateLimiter.acceptedTimes rpm burst ts = specAccepted rpm burst ts := by
    cases ts with
    | nil => rfl
    | cons t0 ts' =>
      exact processRequests_eq_spec rpm burst (t0 :: ts') [] t0 (List.Pairwise.nil)
        (by intro a ha; cases ha)
        (List.Chain.cons (le_refl t0) hts)
  refine ⟨heqspec, ?_, ?_⟩
  · intro w
    rw [heqspec]
    apply window_bound burst (5 : α) (fun t a => decide (t - 5 < a))
      (by
        intro t w2 a hwa haw hwt htw
        simp only [decide_eq_true_eq]
        linarith)
    intro B t C hsplit
    exact (specAcceptGo_precondition rpm burst ts [] B t C (by simpa using hsplit)
      (by simp)).1
  · intro w
    rw [heqspec]
    apply window_bound rpm (60 : α) (fun t a => decide (t - 60 ≤ a))
      (by
        intro t w2 a hwa haw hwt htw
        simp only [decide_eq_true_eq]
        linarith)
    intro B t C hsplit
    exact (specAcceptGo_precondition rpm burst ts [] B t C (by simpa using hsplit)
      (by simp)).2

/-- C8 (witness): at integer times 0,1,2 with burst 2 and rpm 100, the
third call in the burst window is rejected and every window bound
holds. -/
theorem c8_witness :
    RateLimiter.acceptedTimes 100 2 ([0, 1, 2] : List ℤ) = specAccepted 100 2 [0, 1, 2]
    ∧ ((RateLimiter.acceptedTimes 100 2 ([0, 1, 2] : List ℤ)).filter
        (fun a => decide ((-1 : ℤ) < a) && decide (a ≤ -1 + 5))).length ≤ 2 :=
  ⟨(c8_rate_limiter 100 2 ([0, 1, 2] : List ℤ)
      (List.chain'_cons.mpr ⟨by decide, List.chain'_cons.mpr ⟨by decide,
        List.chain'_singleton (2 : ℤ)⟩⟩)).1,
   (c8_rate_limiter 100 2 ([0, 1, 2] : List ℤ)
      (List.chain'_cons.mpr ⟨by decide, List.chain'_cons.mpr ⟨by decide,
        List.chain'_singleton (2 : ℤ)⟩⟩)).2.1 (-1)⟩

/-- The running maximum of similarity scores over a template list,
starting from `b`. -/
def maxScoreFrom (tree : JVal) (b : ℚ) (l : List JVal) : ℚ :=
  l.foldl (fun acc x => max acc (Matcher.similarity_score tree x)) b

theorem le_maxScoreFrom (tree : JVal) :
    ∀ (l : List JVal) (b : ℚ), b ≤ maxScoreFrom tree b l := by
  intro l
  induction l with
  | nil => intro b; exact le_refl b
  | cons x xs ih =>
    intro b
    exact le_trans (le_max_left b (Matcher.similarity_score tree x)) (ih _)

theorem maxScoreFrom_max (tree : JVal) :
    ∀ (l : List JVal) (a b : ℚ), maxScoreFrom tree (max a b) l = max a (maxScoreFrom tree b l) := by
  intro l
  induction l with
  | nil => intro a b; rfl
  | cons x xs ih =>
    intro a b
    show maxScoreFrom tree (max (max a b) (Matcher.similarity_score tree x)) xs
        = max a (maxScoreFrom tree (max b (Matcher.similarity_score tree x)) xs)
    rw [max_assoc, ih]

theorem maxScoreFrom_attains (tree : JVal) :
    ∀ (l : List JVal) (b : ℚ),
      maxScoreFrom tree b l = b
      ∨ ∃ x ∈ l, maxScoreFrom tree b l = Matcher.similarity_score tree x := by
  intro l
  induction l with
  | nil => intro b; exact Or.inl rfl
  | cons x xs ih =>
    intro b
    have hstep : maxScoreFrom tree b (x :: xs)
        = maxScoreFrom tree (max b (Matcher.similarity_score tree x)) xs := rfl
    rcases ih (max b (Matcher.similarity_score tree x)) with heq | ⟨y, hy, heq⟩
    · rcases max_choice b (Matcher.similarity_score tree x) with hm | hm
      · exact Or.inl (by rw [hstep, heq, hm])
      · exact Or.inr ⟨x, List.mem_cons_self _ _, by rw [hstep, heq, hm]⟩
    · exact Or.inr ⟨y, List.mem_cons_of_mem _ hy, by rw [hstep, heq]⟩

/-- Characterisation of `find_best_match`'s scan: it ends at the running
maximum, holding the first template that strictly improved on the initial
best score. -/
theorem find_best_fold (tree : JVal) :
    ∀ (l : List JVal) (bt : Option JVal) (bs : ℚ),
      l.foldl
        (fun (acc : Option JVal × ℚ) tpl =>
          if Matcher.similarity_score tree tpl > acc.2
          then (some tpl, Matcher.similarity_score tree tpl) else acc)
        (bt, bs)
      = ((if bs < maxScoreFrom tree bs l
          then l.find? (fun t => decide (Matcher.similarity_score tree t = maxScoreFrom tree bs l))
          else bt),
         maxScoreFrom tree bs l) := by
  intro l
  induction l with
  | nil =>
    intro bt bs
    simp [maxScoreFrom]
  | cons x xs ih =>
    intro bt bs
    have hM : maxScoreFrom tree bs (x :: xs)
        = maxScoreFrom tree (max bs (Matcher.similarity_score tree x)) xs := rfl
    by_cases hgt : Matcher.similarity_score tree x > bs
    · have hmax : max bs (Matcher.similarity_score tree x) = Matcher.similarity_score tree x :=
        max_eq_right (le_of_lt hgt)
      have hMx : maxScoreFrom tree bs (x :: xs)
          = maxScoreFrom tree (Matcher.similarity_score tree x) xs := by rw [hM, hmax]
      have hlt : bs < maxScoreFrom tree bs (x :: xs) :=
        lt_of_lt_of_le hgt (hMx ▸ le_maxScoreFrom tree xs _)
      rw [show (x :: xs).foldl
            (fun (acc : Option JVal × ℚ) tpl =>
              if Matcher.similarity_score tree tpl > acc.2
              then (some tpl, Matcher.similarity_score tree tpl) else acc) (bt, bs)
          = xs.foldl
            (fun (acc : Option JVal × ℚ) tpl =>
              if Matcher.similarity_score tree tpl > acc.2
              then (some tpl, Matcher.similarity_score tree tpl) else acc)
            (some x, Matcher.similarity_score tree x) by
        simp [hgt]]
      rw [ih (some x) (Matcher.similarity_score tree x), if_pos hlt, hMx]
      by_cases hex : Matcher.similarity_score tree x
          = maxScoreFrom tree (Matcher.similarity_score tree x) xs
      · rw [if_neg (by rw [← hex]; exact lt_irrefl _),
            List.find?_cons_of_pos _ (by simp [← hex])]
      · have hlt2 : Matcher.similarity_score tree x
            < maxScoreFrom tree (Matcher.similarity_score tree x) xs :=
          lt_of_le_of_ne (le_maxScoreFrom tree xs _) hex
        rw [if_pos hlt2, List.find?_cons_of_neg _ (by simp [hex])]
    · have hle : Matcher.similarity_score tree x ≤ bs := le_of_not_lt hgt
      have hmax : max bs (Matcher.similarity_score tree x) = bs := max_eq_left hle
      have hMx : maxScoreFrom tree bs (x :: xs) = maxScoreFrom tree bs xs := by rw [hM, hmax]
      rw [show (x :: xs).foldl
            (fun (acc : Option JVal × ℚ) tpl =>
              if Matcher.similarity_score tree tpl > acc.2
              then (some tpl, Matcher.similarity_score tree tpl) else acc) (bt, bs)
          = xs.foldl
            (fun (acc : Option JVal × ℚ) tpl =>
              if Matcher.similarity_score tree tpl > acc.2
              then (some tpl, Matcher.similarity_score tree tpl) else acc) (bt, bs) by
        simp [hgt]]
      rw [ih bt bs, hMx]
      by_cases hbs : bs < maxScoreFrom tree bs xs
      · rw [if_pos hbs, if_pos hbs,
            List.find?_cons_of_neg _ (by
              simp only [decide_eq_true_eq]
              intro hx
              exact absurd (hx ▸ lt_of_le_of_lt hle hbs) (lt_irrefl _))]
      · rw [if_neg hbs, if_neg hbs]

/-- C9 (confirmed): for every tree and non-empty template list, if the
maximum similarity score meets the (positive) threshold then
`find_best_match` returns that maximum together with the first template
attaining it (ties keep the first encountered); otherwise it returns
none.  The default threshold is 0.8. -/
theorem c9_find_best_match (tree t₀ : JVal) (rest : List JVal) (θ : ℚ) (hθ : 0 < θ) :
    (θ ≤ maxScoreFrom tree (Matcher.similarity_score tree t₀) rest →
      Matcher.find_best_match θ tree (t₀ :: rest)
          = some ((t₀ :: rest).find?
              (fun t => decide (Matcher.similarity_score tree t
                  = maxScoreFrom tree (Matcher.similarity_score tree t₀) rest)),
              maxScoreFrom tree (Matcher.similarity_score tree t₀) rest)
      ∧ ((t₀ :: rest).find?
          (fun t => decide (Matcher.similarity_score tree t
              = maxScoreFrom tree (Matcher.similarity_score tree t₀) rest))).isSome = true)
    ∧ (maxScoreFrom tree (Matcher.similarity_score tree t₀) rest < θ →
        Matcher.find_best_match θ tree (t₀ :: rest) = none)
    ∧ Matcher.defaultSimilarityThreshold = 4 / 5 := by
  have hM0 : maxScoreFrom tree 0 (t₀ :: rest)
      = max 0 (maxScoreFrom tree (Matcher.similarity_score tree t₀) rest) := by
    have h1 : maxScoreFrom tree 0 (t₀ :: rest)
        = maxScoreFrom tree (max 0 (Matcher.similarity_score tree t₀)) rest := rfl
    rw [h1, maxScoreFrom_max]
  have hunfold : Matcher.find_best_match θ tree (t₀ :: rest)
      = (if (maxScoreFrom tree 0 (t₀ :: rest)) ≥ θ
         then some ((if (0 : ℚ) < maxScoreFrom tree 0 (t₀ :: rest)
            then (t₀ :: rest).find?
              (fun t => decide (Matcher.similarity_score tree t = maxScoreFrom tree 0 (t₀ :: rest)))
            else none), maxScoreFrom tree 0 (t₀ :: rest))
         else none) := by
    unfold Matcher.find_best_match
    rw [if_neg (by simp)]
    rw [find_best_fold tree (t₀ :: rest) none 0]
  refine ⟨?_, ?_, by norm_num [Matcher.defaultSimilarityThreshold]⟩
  · intro hge
    have hpos : 0 < maxScoreFrom tree (Matcher.similarity_score tree t₀) rest :=
      lt_of_lt_of_le hθ hge
    have hMeq : maxScoreFrom tree 0 (t₀ :: rest)
        = maxScoreFrom tree (Matcher.similarity_score tree t₀) rest := by
      rw [hM0, max_eq_right (le_of_lt hpos)]
    constructor
    · rw [hunfold, hMeq, if_pos hge, if_pos hpos]
    · rw [List.find?_isSome]
      rcases maxScoreFrom_attains tree rest (Matcher.similarity_score tree t₀) with heq | ⟨y, hy, heq⟩
      · exact ⟨t₀, List.mem_cons_self _ _, by simp [heq]⟩
      · exact ⟨y, List.mem_cons_of_mem _ hy, by simp [heq]⟩
  · intro hlt
    rw [hunfold, hM0]
    rw [if_neg (by
      rw [ge_iff_le, not_le]
      exact max_lt hθ hlt)]

/-- C9 (witness): a falsy tree scores 0 against any template, so with
threshold 1/2 the scan over a one-template list returns none. -/
theorem c9_witness :
    Matcher.find_best_match (1 / 2) (.obj []) [.obj [("screen_id", .str "x")]] = none := by
  have h := (c9_find_best_match (.obj []) (.obj [("screen_id", .str "x")]) [] (1 / 2)
    one_half_pos).2.1
  apply h
  rw [show maxScoreFrom (.obj []) (Matcher.similarity_score (.obj [])
      (.obj [("screen_id", .str "x")])) [] = 0 from rfl]
  exact one_half_pos

/-- C10 (confirmed): `similarity_score` returns exactly 0 when the input
tree is falsy (and likewise when the template is falsy), short-circuiting
before the weighted formula, which for an empty tree against a template
with no required nodes, expected roles, depth, or node count would
evaluate to `0.4 * 1 + 0.4 * 1 + 0.2 * 1 = 1`. -/
theorem c10_empty_tree_scores_zero :
    (∀ tpl, Matcher.similarity_score (.obj []) tpl = 0)
    ∧ (∀ tree, Matcher.similarity_score tree (.obj []) = 0)
    ∧ ((2 / 5 : ℚ) * Matcher.checkRequiredNodes (.obj []) (.obj [("screen_id", .str "login")])
        + (2 / 5) * Matcher.checkStructure (.obj []) (.obj [("screen_id", .str "login")])
        + (1 / 5) * Matcher.checkRoles (.obj []) (.obj [("screen_id", .str "login")]) = 1) := by
  refine ⟨fun tpl => rfl, fun tree => ?_, ?_⟩
  · unfold Matcher.similarity_score
    have : truthy (.obj []) = false := rfl
    simp [this]
  · rw [show Matcher.checkRequiredNodes (.obj []) (.obj [("screen_id", .str "login")]) = 1
          from rfl,
        show Matcher.checkStructure (.obj []) (.obj [("screen_id", .str "login")]) = 1 from rfl,
        show Matcher.checkRoles (.obj []) (.obj [("screen_id", .str "login")]) = 1 from rfl]
    norm_num

end SystemZero
